import Mathlib

/-!
Verification development for the document ingestion and retrieval pipeline of
the word-editor repository.  The TypeScript sources are shallowly embedded:
JavaScript strings become `List Char`, the chunker's regular expressions become
an explicit backtracking matcher over character-class atoms, asynchronous
external services (embedding provider, Convex store, ANN index) become
function parameters or oracle inputs, and similarity scores become `Rat`.
-/

set_option maxRecDepth 10000

/-- Predicate for JavaScript whitespace (the `\s` class and `String.prototype.trim`):
space, tab, line feed, carriage return, vertical tab, form feed, NBSP and BOM.
(The remaining exotic Unicode space code points are omitted from the model;
no source behaviour relevant to the claims depends on them.) -/
def isJsWs (c : Char) : Bool :=
  c = ' ' || c = '\t' || c = '\n' || c = '\r' || c.toNat = 11 || c.toNat = 12 ||
  c.toNat = 0xa0 || c.toNat = 0xfeff

/-- Predicate for JavaScript line terminators (`\n`, `\r`, U+2028, U+2029),
used by the multiline anchors `^`/`$` and excluded by `.`. -/
def isLineTerm (c : Char) : Bool :=
  c = '\n' || c = '\r' || c.toNat = 0x2028 || c.toNat = 0x2029

/-- Sequence of non-whitespace characters of a string, in order.  Used to state
content-preservation ("no non-whitespace content dropped / duplicated /
reordered, up to whitespace"). -/
def contentOf (l : List Char) : List Char := l.filter (fun c => !isJsWs c)

/-- Left trim: drop the leading whitespace run (first half of `String.prototype.trim`). -/
def trimL (l : List Char) : List Char := l.dropWhile isJsWs

/-- Right trim: drop the trailing whitespace run. -/
def trimR (l : List Char) : List Char := (l.reverse.dropWhile isJsWs).reverse

/-- Model of `String.prototype.trim`. -/
def jsTrim (l : List Char) : List Char := trimL (trimR l)

/-- Model of `s.slice(-n)` on strings.  JavaScript quirk: `s.slice(-0)` is
`s.slice(0)`, i.e. the whole string; for `n > 0` it is the suffix of length
`min n s.length`. -/
def jsSliceNeg (n : Nat) (l : List Char) : List Char :=
  if n = 0 then l else l.drop (l.length - n)

/-- Model of `s.slice(start, stop)` for natural arguments (as used by
`chunkText`, where `0 ≤ start ≤ stop ≤ s.length`). -/
def jsSlice (l : List Char) (start stop : Nat) : List Char :=
  (l.take stop).drop start

/-- Blank-line separator `'\n\n'` injected between accumulated paragraphs. -/
def nl2 : List Char := ['\n', '\n']

-- #### Basic lemmas about the string model

theorem contentOf_append (a b : List Char) :
    contentOf (a ++ b) = contentOf a ++ contentOf b := by
  simp [contentOf, List.filter_append]

theorem contentOf_nil : contentOf [] = [] := rfl

theorem contentOf_eq_nil_iff (l : List Char) :
    contentOf l = [] ↔ ∀ c ∈ l, isJsWs c = true := by
  simp [contentOf, List.filter_eq_nil_iff]

theorem contentOf_dropWhile (l : List Char) :
    contentOf (l.dropWhile isJsWs) = contentOf l := by
  induction l with
  | nil => rfl
  | cons c cs ih =>
    by_cases h : isJsWs c
    · simpa [List.dropWhile_cons, h, contentOf] using ih
    · simp [List.dropWhile_cons, h]

theorem contentOf_reverse (l : List Char) :
    contentOf l.reverse = (contentOf l).reverse := by
  simp [contentOf, List.filter_reverse]

theorem contentOf_trimL (l : List Char) : contentOf (trimL l) = contentOf l :=
  contentOf_dropWhile l

theorem contentOf_trimR (l : List Char) : contentOf (trimR l) = contentOf l := by
  have h := contentOf_dropWhile l.reverse
  rw [contentOf_reverse] at h
  have := congrArg List.reverse h
  simpa [trimR, contentOf_reverse] using this

theorem contentOf_jsTrim (l : List Char) : contentOf (jsTrim l) = contentOf l := by
  rw [jsTrim, contentOf_trimL, contentOf_trimR]

theorem trimL_length_le (l : List Char) : (trimL l).length ≤ l.length :=
  (List.dropWhile_suffix isJsWs).length_le

theorem trimR_length_le (l : List Char) : (trimR l).length ≤ l.length := by
  simpa [trimR] using (List.dropWhile_suffix (l := l.reverse) isJsWs).length_le

theorem jsTrim_length_le (l : List Char) : (jsTrim l).length ≤ l.length :=
  le_trans (trimL_length_le _) (trimR_length_le _)

theorem trimL_head_not_ws (l : List Char) (c : Char) (h : (trimL l).head? = some c) :
    isJsWs c = false := by
  induction l with
  | nil => simp [trimL] at h
  | cons a as ih =>
    by_cases ha : isJsWs a
    · exact ih (by simpa [trimL, List.dropWhile_cons, ha] using h)
    · have hac : a = c := by
        simpa [trimL, List.dropWhile_cons, ha] using h
      subst hac
      simpa using ha

/-- Helper: a list whose every element is whitespace left-trims to `[]`. -/
theorem trimL_eq_nil_of_all_ws (l : List Char) (h : ∀ c ∈ l, isJsWs c = true) :
    trimL l = [] := by
  simpa [trimL, List.dropWhile_eq_nil_iff] using h

theorem all_ws_of_trimL_eq_nil (l : List Char) (h : trimL l = []) :
    ∀ c ∈ l, isJsWs c = true := by
  simpa [trimL, List.dropWhile_eq_nil_iff] using h

theorem trimL_append_of_all_ws (a b : List Char) (h : ∀ c ∈ a, isJsWs c = true) :
    trimL (a ++ b) = trimL b := by
  induction a with
  | nil => simp
  | cons c cs ih =>
    have hc : isJsWs c = true := h c (by simp)
    simp only [List.cons_append, trimL, List.dropWhile_cons, hc, if_pos]
    exact ih (fun x hx => h x (by simp [hx]))

theorem trimL_append_of_ne_nil (a b : List Char) (h : trimL a ≠ []) :
    trimL (a ++ b) = trimL a ++ b := by
  induction a with
  | nil => simp [trimL] at h
  | cons c cs ih =>
    by_cases hc : isJsWs c
    · have h' : trimL cs ≠ [] := by simpa [trimL, List.dropWhile_cons, hc] using h
      simp only [List.cons_append, trimL, List.dropWhile_cons, hc, if_pos]
      exact ih h'
    · simp [trimL, List.dropWhile_cons, hc]

/-- Property that a string does not end in whitespace (holds for `[]`). -/
def endsNonWs (l : List Char) : Prop :=
  ∀ c, l.getLast? = some c → isJsWs c = false

theorem head_dropWhile_not (p : Char → Bool) (l : List Char) (c : Char)
    (h : (l.dropWhile p).head? = some c) : p c = false := by
  induction l with
  | nil => simp at h
  | cons a as ih =>
    by_cases ha : p a
    · exact ih (by simpa [List.dropWhile_cons, ha] using h)
    · have hac : a = c := by simpa [List.dropWhile_cons, ha] using h
      subst hac
      simpa using ha

theorem dropWhile_eq_self_of_head (p : Char → Bool) (l : List Char)
    (h : ∀ c, l.head? = some c → p c = false) : l.dropWhile p = l := by
  cases l with
  | nil => rfl
  | cons a as => simp [List.dropWhile_cons, h a rfl]

theorem trimR_eq_self (l : List Char) (h : endsNonWs l) : trimR l = l := by
  have hh : ∀ c, l.reverse.head? = some c → isJsWs c = false := by
    intro c hc
    exact h c (by simpa [List.head?_reverse] using hc)
  simp [trimR, dropWhile_eq_self_of_head isJsWs l.reverse hh]

theorem jsTrim_eq_trimL (l : List Char) (h : endsNonWs l) : jsTrim l = trimL l := by
  rw [jsTrim, trimR_eq_self l h]

theorem trimL_eq_self_of_head (l : List Char)
    (h : ∀ c, l.head? = some c → isJsWs c = false) : trimL l = l :=
  dropWhile_eq_self_of_head isJsWs l h

theorem endsNonWs_nil : endsNonWs [] := by
  intro c hc
  simp at hc

theorem endsNonWs_append (a b : List Char) (hb : b ≠ []) (h : endsNonWs b) :
    endsNonWs (a ++ b) := by
  intro c hc
  apply h c
  rwa [List.getLast?_append_of_ne_nil _ hb] at hc

theorem trimL_getLast? (l : List Char) (h : trimL l ≠ []) :
    (trimL l).getLast? = l.getLast? := by
  obtain ⟨t, ht⟩ : trimL l <:+ l := List.dropWhile_suffix isJsWs
  conv_rhs => rw [← ht]
  rw [List.getLast?_append_of_ne_nil _ h]

theorem endsNonWs_trimR (l : List Char) : endsNonWs (trimR l) := by
  intro c hc
  have h2 : (l.reverse.dropWhile isJsWs).head? = some c := by
    rw [trimR] at hc
    rwa [List.getLast?_reverse] at hc
  exact head_dropWhile_not isJsWs l.reverse c h2

theorem endsNonWs_jsTrim (l : List Char) : endsNonWs (jsTrim l) := by
  intro c hc
  by_cases h : jsTrim l = []
  · simp [h] at hc
  · have : (jsTrim l).getLast? = (trimR l).getLast? := trimL_getLast? (trimR l) h
    exact endsNonWs_trimR l c (this ▸ hc)

theorem trimL_trimL (l : List Char) : trimL (trimL l) = trimL l := by
  apply trimL_eq_self_of_head
  intro c hc
  exact trimL_head_not_ws l c hc

theorem jsTrim_idem (l : List Char) : jsTrim (jsTrim l) = jsTrim l := by
  rw [jsTrim_eq_trimL (jsTrim l) (endsNonWs_jsTrim l)]
  rw [jsTrim]
  exact trimL_trimL (trimR l)

theorem jsTrim_nil : jsTrim [] = [] := rfl

theorem jsTrim_eq_nil_of_all_ws (l : List Char) (h : ∀ c ∈ l, isJsWs c = true) :
    jsTrim l = [] := by
  have hr : ∀ c ∈ l.reverse, isJsWs c = true := by
    intro c hc
    exact h c (List.mem_reverse.mp hc)
  have : l.reverse.dropWhile isJsWs = [] := by
    simpa [List.dropWhile_eq_nil_iff] using hr
  simp [jsTrim, trimR, this, trimL]

theorem jsTrim_eq_nil_iff (l : List Char) : jsTrim l = [] ↔ contentOf l = [] := by
  constructor
  · intro h
    rw [← contentOf_jsTrim, h, contentOf_nil]
  · intro h
    exact jsTrim_eq_nil_of_all_ws l ((contentOf_eq_nil_iff l).mp h)

theorem contentOf_ne_nil_of_jsTrim_ne_nil (l : List Char) (h : jsTrim l ≠ []) :
    contentOf l ≠ [] := fun hc => h ((jsTrim_eq_nil_iff l).mpr hc)

theorem jsTrim_append_chunk (l t : List Char) (hlc : trimL l ≠ [])
    (ht : t ≠ []) (hte : endsNonWs t) :
    jsTrim (l ++ nl2 ++ t) = trimL l ++ nl2 ++ t := by
  have hend : endsNonWs (l ++ nl2 ++ t) := by
    rw [List.append_assoc]
    exact endsNonWs_append l (nl2 ++ t) (by simp [nl2, ht]) (endsNonWs_append nl2 t ht hte)
  rw [jsTrim_eq_trimL _ hend, List.append_assoc, trimL_append_of_ne_nil l (nl2 ++ t) hlc,
    ← List.append_assoc]

theorem length_jsSliceNeg_le (n : Nat) (l : List Char) (h : 0 < n) :
    (jsSliceNeg n l).length ≤ n := by
  rw [jsSliceNeg, if_neg (Nat.pos_iff_ne_zero.mp h)]
  rw [List.length_drop]
  omega

theorem isPrefixOf_append_right (a t : List Char) : a.isPrefixOf (a ++ t) = true := by
  induction a with
  | nil => simp [List.isPrefixOf]
  | cons x xs ih => simp [List.isPrefixOf]

theorem isPrefixOf_nil_left (l : List Char) : List.isPrefixOf [] l = true := by
  simp [List.isPrefixOf]

theorem isPrefixOf_extend (a b t : List Char) (h : a.isPrefixOf b = true) :
    a.isPrefixOf (b ++ t) = true := by
  induction a generalizing b with
  | nil => simp [List.isPrefixOf]
  | cons x xs ih =>
    cases b with
    | nil => simp [List.isPrefixOf] at h
    | cons y ys =>
      simp only [List.isPrefixOf, List.cons_append, Bool.and_eq_true] at h ⊢
      exact ⟨h.1, ih ys h.2⟩

/-- Key seam lemma: taking the JS `slice(-n)` of a buffer and left-trimming it
gives the same result whether the buffer is trimmed first or not, provided the
buffer does not end in whitespace (which the paragraph accumulator guarantees). -/
theorem trimL_jsSliceNeg_trimL (n : Nat) (l : List Char) (h : endsNonWs l) :
    trimL (jsSliceNeg n l) = trimL (jsSliceNeg n (trimL l)) := by
  by_cases hb : trimL l = []
  · cases l with
    | nil => simp [jsSliceNeg, trimL]
    | cons x xs =>
      exfalso
      have hall := all_ws_of_trimL_eq_nil _ hb
      have hne : x :: xs ≠ [] := by simp
      have hws := hall _ (List.getLast_mem hne)
      have hf := h _ (List.getLast?_eq_getLast (x :: xs) hne)
      rw [hf] at hws
      cases hws
  · by_cases hn : n = 0
    · simp [jsSliceNeg, hn, trimL_trimL]
    · have hdecomp : l.takeWhile isJsWs ++ trimL l = l := by
        exact List.takeWhile_append_dropWhile isJsWs l
      have hlen : l.length = (l.takeWhile isJsWs).length + (trimL l).length := by
        conv_lhs => rw [← hdecomp]
        simp
      rw [jsSliceNeg, if_neg hn, jsSliceNeg, if_neg hn]
      conv_lhs => rw [← hdecomp]
      rw [List.drop_append_eq_append_drop]
      rw [trimL_append_of_all_ws]
      · congr 1
        simp only [List.length_append]
        congr 1
        omega
      · intro c hc
        exact List.mem_takeWhile_imp (List.mem_of_mem_drop hc)

-- #### Regular-expression machinery for `detectSectionBoundaries`
--
-- Every heading pattern in `HEADING_PATTERNS` is a line-anchored sequence of
-- greedy character-class repetitions (`^ atom₁ atom₂ … $` with the `m` flag,
-- some with the `i` flag folded into the classes), so a small backtracking
-- matcher over class atoms embeds them exactly.

/-- Greedy character-class repetition `cls{lo,hi}` (`hi = none` means unbounded). -/
structure RAtom where
  cls : Char → Bool
  lo : Nat
  hi : Option Nat

/-- Largest number of leading characters an atom's greedy repetition can consume. -/
def maxRep (a : RAtom) (l : List Char) : Nat :=
  match a.hi with
  | some h => min h (l.takeWhile a.cls).length
  | none => (l.takeWhile a.cls).length

/-- Multiline `$` anchor: end of input or just before a line terminator. -/
def atLineEnd (l : List Char) : Bool :=
  match l.head? with
  | none => true
  | some c => isLineTerm c

/-- Backtracking matcher for an atom sequence followed by the multiline `$`
anchor.  Returns the length of the match found first in JavaScript backtracking
order (each greedy repetition tries its longest count first), if any. -/
def matchFrom : List RAtom → List Char → Option Nat
  | [], l => if atLineEnd l then some 0 else none
  | a :: rest, l =>
    (List.range (maxRep a l + 1)).reverse.findSome? fun k =>
      if k < a.lo then none
      else (matchFrom rest (l.drop k)).map fun m => k + m

theorem matchFrom_le_length (atoms : List RAtom) (l : List Char) (n : Nat)
    (h : matchFrom atoms l = some n) : n ≤ l.length := by
  induction atoms generalizing l n with
  | nil =>
    rw [matchFrom] at h
    by_cases ha : atLineEnd l
    · simp [ha] at h
      omega
    · simp [ha] at h
  | cons a rest ih =>
    rw [matchFrom] at h
    obtain ⟨k, hk, hfk⟩ := List.exists_of_findSome?_eq_some h
    by_cases hlo : k < a.lo
    · simp [hlo] at hfk
    · simp only [hlo, if_neg, if_false, Option.map_eq_some', not_false_iff] at hfk
      obtain ⟨m, hm, hnm⟩ := hfk
      have hml := ih (l.drop k) m hm
      rw [List.length_drop] at hml
      have hkb : k ≤ maxRep a l := by
        simp only [List.mem_reverse, List.mem_range] at hk
        omega
      have : maxRep a l ≤ l.length := by
        have ht : (l.takeWhile a.cls).length ≤ l.length :=
          (List.takeWhile_sublist a.cls).length_le
        unfold maxRep
        cases a.hi with
        | none => exact ht
        | some hh =>
          simp only [min_le_iff]
          exact Or.inr ht
      omega

/-- Behaviour of the matcher when the pattern's first atom is mandatory and
rejects the first character: no match. -/
theorem matchFrom_cons_none (a : RAtom) (rest : List RAtom) (c : Char)
    (l : List Char) (hcls : a.cls c = false) (hlo : 1 ≤ a.lo) :
    matchFrom (a :: rest) (c :: l) = none := by
  have hrep : maxRep a (c :: l) = 0 := by
    unfold maxRep
    cases a.hi with
    | none => simp [List.takeWhile_cons, hcls]
    | some hh => simp [List.takeWhile_cons, hcls]
  rw [matchFrom, hrep]
  have h0 : (0 : Nat) < a.lo := hlo
  simp [List.findSome?, h0]

/-- Result of checking whether the last character of a candidate match is a line
terminator (determines whether the next scan position is a line start). -/
def lastIsLineTerm (l : List Char) (dflt : Bool) : Bool :=
  match l.getLast? with
  | some d => isLineTerm d
  | none => dflt

/-- One global scan of a line-anchored pattern over the text, modelling
`while ((match = globalPattern.exec(text)) !== null)`: the pattern is tried at
every line-start position; on a match the scan records `(index, matchedText)`
and resumes right after the match.  All seven heading patterns match at least
one character; a hypothetical empty match steps one character so the model is
total (the source would loop forever there). -/
def scanPatternGo (atoms : List RAtom) : Nat → Bool → Nat → List Char →
    List (Nat × List Char)
  | _, _, _, [] => []
  | 0, _, _, _ :: _ => []
  | fuel + 1, lineStart, pos, c :: rest =>
    if lineStart then
      match matchFrom atoms (c :: rest) with
      | some n =>
        if n = 0 then scanPatternGo atoms fuel (isLineTerm c) (pos + 1) rest
        else
          (pos, (c :: rest).take n) ::
            scanPatternGo atoms fuel (lastIsLineTerm ((c :: rest).take n) false)
              (pos + n) ((c :: rest).drop n)
      | none => scanPatternGo atoms fuel (isLineTerm c) (pos + 1) rest
    else scanPatternGo atoms fuel (isLineTerm c) (pos + 1) rest

/-- Wrapper supplying sufficient fuel: every recursion step consumes at least
one character, so `l.length` steps always suffice. -/
def scanPattern (atoms : List RAtom) (lineStart : Bool) (pos : Nat)
    (l : List Char) : List (Nat × List Char) :=
  scanPatternGo atoms l.length lineStart pos l

-- #### The seven heading patterns of `HEADING_PATTERNS`

/-- Atom for a case-insensitive literal character (`i` flag). -/
def litCIAtom (c : Char) : RAtom := ⟨fun x => x.toLower = c.toLower, 1, some 1⟩

/-- Atom for a case-sensitive literal character. -/
def litAtom (c : Char) : RAtom := ⟨fun x => x = c, 1, some 1⟩

/-- Atom sequence for a case-insensitive literal word. -/
def strCI (s : List Char) : List RAtom := s.map litCIAtom

/-- Greedy `\s{lo,}` atom. -/
def wsAtom (lo : Nat) : RAtom := ⟨isJsWs, lo, none⟩

/-- Greedy `.{lo,}` atom (`.` excludes line terminators). -/
def dotAtom (lo : Nat) : RAtom := ⟨fun c => !isLineTerm c, lo, none⟩

/-- Greedy `\d{1,}` atom. -/
def digitAtom : RAtom := ⟨Char.isDigit, 1, none⟩

/-- Single `[.:]` atom. -/
def dotColonAtom : RAtom := ⟨fun c => c = '.' || c = ':', 1, some 1⟩

/-- Single `[A-Z]` atom (case-sensitive). -/
def upperAtom : RAtom := ⟨fun c => 'A' ≤ c && c ≤ 'Z', 1, some 1⟩

/-- Pattern 1, `^#{1,3}\s+(.+)$` (Markdown headings). -/
def patMarkdown : List RAtom :=
  [⟨fun c => c = '#', 1, some 3⟩, wsAtom 1, dotAtom 1]

/-- Tail `\s+\d+[.:]\s*.*` shared by the Chapter and Part patterns. -/
def chapterTail : List RAtom := [wsAtom 1, digitAtom, dotColonAtom, wsAtom 0, dotAtom 0]

/-- Pattern 2, `^(Chapter\s+\d+[.:]\s*.*)$` with the `i` flag. -/
def patChapter : List RAtom := strCI ['C', 'h', 'a', 'p', 't', 'e', 'r'] ++ chapterTail

/-- Pattern 3, `^(Part\s+\d+[.:]\s*.*)$` with the `i` flag. -/
def patPart : List RAtom := strCI ['P', 'a', 'r', 't'] ++ chapterTail

/-- Pattern 4, `^(Section\s+[\d.]+[.:]\s*.*)$` with the `i` flag. -/
def patSection : List RAtom :=
  strCI ['S', 'e', 'c', 't', 'i', 'o', 'n'] ++
    [wsAtom 1, ⟨fun c => c.isDigit || c = '.', 1, none⟩, dotColonAtom, wsAtom 0, dotAtom 0]

/-- Pattern 5, `^(\d+\.\s+[A-Z].{2,})$` (numbered headers like "1. Introduction"). -/
def patNumbered : List RAtom :=
  [digitAtom, litAtom '.', wsAtom 1, upperAtom, dotAtom 2]

/-- Pattern 6, `^(\d+\.\d+\s+[A-Z].{2,})$` ("1.1 Background"). -/
def patSubNumbered : List RAtom :=
  [digitAtom, litAtom '.', digitAtom, wsAtom 1, upperAtom, dotAtom 2]

/-- Pattern 7, `^([A-Z][A-Z\s]{4,})$` (ALL CAPS headings). -/
def patAllCaps : List RAtom :=
  [upperAtom, ⟨fun c => ('A' ≤ c && c ≤ 'Z') || isJsWs c, 4, none⟩]

/-- Heading extraction for the Markdown pattern: the capture group `(.+)` sits
after `#{1,3}\s+`, so `match[1].trim()` equals the whole match with the hashes
stripped and then trimmed; when that is empty, JS falls back to
`match[0].trim()`. -/
def extractMarkdown (m : List Char) : List Char :=
  let h := jsTrim (m.dropWhile (fun c => c = '#'))
  if h = [] then jsTrim m else h

/-- Heading extraction for patterns whose capture group is the whole match:
`match[1]?.trim() || match[0]?.trim()` is just the trimmed match. -/
def extractWhole (m : List Char) : List Char := jsTrim m

/-- Ordered pattern list mirroring `HEADING_PATTERNS`, each with its heading
extractor. -/
def headingPatterns : List (List RAtom × (List Char → List Char)) :=
  [(patMarkdown, extractMarkdown), (patChapter, extractWhole), (patPart, extractWhole),
   (patSection, extractWhole), (patNumbered, extractWhole),
   (patSubNumbered, extractWhole), (patAllCaps, extractWhole)]

/-- Section boundary record (`{ start: number; heading?: string }`). -/
structure Boundary where
  start : Nat
  heading : Option (List Char)
deriving DecidableEq, Repr

/-- Ordered insertion used to model `boundaries.sort((a, b) => a.start - b.start)`. -/
def insertBoundary (b : Boundary) : List Boundary → List Boundary
  | [] => [b]
  | x :: xs => if b.start ≤ x.start then b :: x :: xs else x :: insertBoundary b xs

/-- Model of the sort call (insertion sort by offset; the relative order of
equal offsets affects only which heading label a span carries, a value no
claim depends on). -/
def sortBoundaries : List Boundary → List Boundary
  | [] => []
  | b :: bs => insertBoundary b (sortBoundaries bs)

/-- Deduplication pass: keep a boundary only when it is more than 50 characters
past the previously kept one. -/
def dedupBoundaries (l : List Boundary) : List Boundary :=
  l.foldl (fun acc b =>
    match acc.getLast? with
    | none => acc ++ [b]
    | some last => if 50 < b.start - last.start then acc ++ [b] else acc) []

/-- Model of `detectSectionBoundaries`: the implicit boundary at offset 0, plus
every global-scan match of every heading pattern, sorted by offset and
deduplicated. -/
def detectSectionBoundaries (text : List Char) : List Boundary :=
  let all : List Boundary :=
    ⟨0, none⟩ :: headingPatterns.flatMap (fun pr =>
      (scanPattern pr.1 true 0 text).map fun im => ⟨im.1, some (pr.2 im.2)⟩)
  dedupBoundaries (sortBoundaries all)

/-- Strong induction on list length, used for the scanning functions that
advance by more than one character. -/
theorem listLengthInd {α : Type} {motive : List α → Prop}
    (h : ∀ l, (∀ t : List α, t.length < l.length → motive t) → motive l) :
    ∀ l, motive l := by
  intro l
  generalize hn : l.length = n
  induction n using Nat.strong_induction_on generalizing l with
  | _ n ih =>
    subst hn
    exact h l (fun t ht => ih t.length ht t rfl)

theorem scanPatternGo_pos_bound (atoms : List RAtom) :
    ∀ (fuel : Nat) (l : List Char) (ls : Bool) (pos : Nat),
      ∀ im ∈ scanPatternGo atoms fuel ls pos l,
        pos ≤ im.1 ∧ im.1 < pos + l.length := by
  intro fuel
  induction fuel with
  | zero =>
    intro l ls pos im him
    match l with
    | [] => simp [scanPatternGo] at him
    | c :: rest => simp [scanPatternGo] at him
  | succ fuel ih =>
    intro l ls pos im him
    match l with
    | [] => simp [scanPatternGo] at him
    | c :: rest =>
      rw [scanPatternGo] at him
      by_cases hls : ls = true
      · rw [if_pos hls] at him
        cases hm : matchFrom atoms (c :: rest) with
        | some n =>
          rw [hm] at him
          dsimp only at him
          by_cases hn : n = 0
          · rw [if_pos hn] at him
            have := ih rest (isLineTerm c) (pos + 1) im him
            simp only [List.length_cons]
            omega
          · rw [if_neg hn] at him
            have hnlen := matchFrom_le_length atoms (c :: rest) n hm
            rcases List.mem_cons.mp him with heq | htail
            · subst heq
              simp only [List.length_cons]
              omega
            · have := ih ((c :: rest).drop n) _ (pos + n) im htail
              simp only [List.length_drop, List.length_cons] at this ⊢
              omega
        | none =>
          rw [hm] at him
          dsimp only at him
          have := ih rest (isLineTerm c) (pos + 1) im him
          simp only [List.length_cons]
          omega
      · rw [if_neg hls] at him
        have := ih rest (isLineTerm c) (pos + 1) im him
        simp only [List.length_cons]
        omega

theorem scanPattern_pos_bound (atoms : List RAtom) (l : List Char) (ls : Bool)
    (pos : Nat) : ∀ im ∈ scanPattern atoms ls pos l,
    pos ≤ im.1 ∧ im.1 < pos + l.length :=
  scanPatternGo_pos_bound atoms l.length l ls pos

/-- Helper: a scan over a text whose every character is rejected by the
pattern's mandatory first atom finds no match. -/
theorem scanPatternGo_eq_nil (a : RAtom) (rest : List RAtom) (hlo : 1 ≤ a.lo) :
    ∀ (fuel : Nat) (l : List Char), (∀ c ∈ l, a.cls c = false) →
      ∀ (ls : Bool) (pos : Nat), scanPatternGo (a :: rest) fuel ls pos l = [] := by
  intro fuel
  induction fuel with
  | zero =>
    intro l hall ls pos
    match l with
    | [] => rw [scanPatternGo]
    | c :: cs => rw [scanPatternGo]
  | succ fuel ih =>
    intro l hall ls pos
    match l with
    | [] => rw [scanPatternGo]
    | c :: cs =>
      have hnone := matchFrom_cons_none a rest c cs (hall c (by simp)) hlo
      rw [scanPatternGo]
      by_cases hls : ls = true
      · rw [if_pos hls, hnone]
        dsimp only
        exact ih cs (fun x hx => hall x (by simp [hx])) _ _
      · rw [if_neg hls]
        exact ih cs (fun x hx => hall x (by simp [hx])) _ _

theorem scanPattern_eq_nil (a : RAtom) (rest : List RAtom) (hlo : 1 ≤ a.lo)
    (l : List Char) (hall : ∀ c ∈ l, a.cls c = false) (ls : Bool) (pos : Nat) :
    scanPattern (a :: rest) ls pos l = [] :=
  scanPatternGo_eq_nil a rest hlo l.length l hall ls pos

-- #### The paragraph splitter `text.split(/\n\s*\n/)`

/-- Index of the last element satisfying `p`, if any. -/
def lastIdx (p : Char → Bool) : List Char → Option Nat
  | [] => none
  | c :: rest =>
    match lastIdx p rest with
    | some k => some (k + 1)
    | none => if p c then some 0 else none

theorem lastIdx_lt_length (p : Char → Bool) (l : List Char) (k : Nat)
    (h : lastIdx p l = some k) : k < l.length := by
  induction l generalizing k with
  | nil => simp [lastIdx] at h
  | cons c rest ih =>
    rw [lastIdx] at h
    cases hr : lastIdx p rest with
    | some j =>
      rw [hr] at h
      dsimp only at h
      have := ih j hr
      simp only [Option.some.injEq] at h
      simp only [List.length_cons]
      omega
    | none =>
      rw [hr] at h
      dsimp only at h
      by_cases hp : p c = true
      · simp [hp] at h
        simp [← h]
      · simp [hp] at h

/-- Length of the separator match of `/\n\s*\n/` at the head of `l`, if the
regex matches there: a newline, then (greedily, with backtracking on the final
`\n`) the whitespace run up to and including its last newline. -/
def blankSepLen (l : List Char) : Option Nat :=
  match l with
  | '\n' :: rest =>
    match lastIdx (fun c => c = '\n') (rest.takeWhile isJsWs) with
    | some k => some (k + 2)
    | none => none
  | _ => none

theorem blankSepLen_cons_ne (c : Char) (rest : List Char) (hc : c ≠ '\n') :
    blankSepLen (c :: rest) = none := by
  unfold blankSepLen
  split
  · rename_i rest2 heq
    exfalso
    injection heq with h1 h2
    exact hc h1
  · rfl

theorem blankSepLen_bounds (l : List Char) (n : Nat) (h : blankSepLen l = some n) :
    2 ≤ n ∧ n ≤ l.length := by
  match l with
  | [] => simp [blankSepLen] at h
  | c :: rest =>
    by_cases hc : c = '\n'
    · subst hc
      rw [blankSepLen] at h
      cases hk : lastIdx (fun c => c = '\n') (rest.takeWhile isJsWs) with
      | some k =>
        rw [hk] at h
        simp only [Option.some.injEq] at h
        have hkl := lastIdx_lt_length _ _ _ hk
        have : (rest.takeWhile isJsWs).length ≤ rest.length :=
          (List.takeWhile_sublist isJsWs).length_le
        simp only [List.length_cons]
        omega
      | none =>
        rw [hk] at h
        simp at h
    · rw [blankSepLen_cons_ne c rest hc] at h
      cases h

theorem blankSepLen_all_ws (l : List Char) (n : Nat) (h : blankSepLen l = some n) :
    ∀ c ∈ l.take n, isJsWs c = true := by
  match l with
  | [] => simp [blankSepLen] at h
  | c :: rest =>
    by_cases hc : c = '\n'
    · subst hc
      rw [blankSepLen] at h
      cases hk : lastIdx (fun c => c = '\n') (rest.takeWhile isJsWs) with
      | some k =>
        rw [hk] at h
        simp only [Option.some.injEq] at h
        have hkl := lastIdx_lt_length _ _ _ hk
        intro x hx
        rw [← h] at hx
        rcases List.mem_cons.mp (by simpa [List.take_cons] using hx) with heq | htail
        · subst heq
          simp [isJsWs]
        · have hk1 : k + 1 ≤ (rest.takeWhile isJsWs).length := hkl
          have heq2 : rest.take (k + 1) = (rest.takeWhile isJsWs).take (k + 1) := by
            conv_lhs => rw [← List.takeWhile_append_dropWhile (p := isJsWs) (l := rest)]
            exact List.take_append_of_le_length hk1
          rw [heq2] at htail
          exact List.mem_takeWhile_imp (List.mem_of_mem_take htail)
      | none =>
        rw [hk] at h
        simp at h
    · rw [blankSepLen_cons_ne c rest hc] at h
      cases h

/-- Scanning worker for `text.split(/\n\s*\n/)`: accumulate characters (in
reverse) until a separator match, emit the accumulated piece, continue after
the separator.  Fuel-based so that it reduces in the kernel; every step
consumes at least one character, so `l.length` fuel always suffices. -/
def splitBlankGo : Nat → List Char → List Char → List (List Char)
  | _, acc, [] => [acc.reverse]
  | 0, _, _ :: _ => []
  | fuel + 1, acc, c :: rest =>
    match blankSepLen (c :: rest) with
    | some n => acc.reverse :: splitBlankGo fuel [] ((c :: rest).drop n)
    | none => splitBlankGo fuel (c :: acc) rest

/-- Model of `text.split(/\n\s*\n/)`. -/
def jsSplitBlank (l : List Char) : List (List Char) := splitBlankGo l.length [] l

theorem splitBlankGo_content :
    ∀ (fuel : Nat) (l : List Char), l.length ≤ fuel → ∀ acc,
      ((splitBlankGo fuel acc l).map contentOf).flatten =
        contentOf acc.reverse ++ contentOf l := by
  intro fuel
  induction fuel with
  | zero =>
    intro l hl acc
    match l with
    | [] => simp [splitBlankGo, contentOf]
    | c :: rest => simp at hl
  | succ fuel ih =>
    intro l hl acc
    match l with
    | [] => simp [splitBlankGo, contentOf]
    | c :: rest =>
      rw [splitBlankGo]
      cases hsep : blankSepLen (c :: rest) with
      | some n =>
        dsimp only
        have hb := blankSepLen_bounds _ _ hsep
        have hlt : ((c :: rest).drop n).length ≤ fuel := by
          simp only [List.length_drop, List.length_cons] at *
          omega
        rw [List.map_cons, List.flatten_cons, ih _ hlt []]
        have hsplit : contentOf (c :: rest) = contentOf ((c :: rest).drop n) := by
          conv_lhs => rw [← List.take_append_drop n (c :: rest)]
          rw [contentOf_append]
          have : contentOf ((c :: rest).take n) = [] := by
            rw [contentOf_eq_nil_iff]
            exact blankSepLen_all_ws _ _ hsep
          rw [this, List.nil_append]
        rw [hsplit]
        simp [contentOf]
      | none =>
        dsimp only
        rw [ih rest (by simp at hl ⊢; omega) (c :: acc)]
        rw [List.reverse_cons, contentOf_append]
        have hcr : contentOf (c :: rest) = contentOf [c] ++ contentOf rest := by
          simpa using contentOf_append [c] rest
        rw [hcr, List.append_assoc]

theorem jsSplitBlank_content (l : List Char) :
    ((jsSplitBlank l).map contentOf).flatten = contentOf l := by
  rw [jsSplitBlank, splitBlankGo_content l.length l le_rfl []]
  simp [contentOf]

theorem splitBlankGo_no_newline :
    ∀ (fuel : Nat) (l : List Char), l.length ≤ fuel → '\n' ∉ l → ∀ acc,
      splitBlankGo fuel acc l = [acc.reverse ++ l] := by
  intro fuel
  induction fuel with
  | zero =>
    intro l hl _ acc
    match l with
    | [] => simp [splitBlankGo]
    | c :: rest => simp at hl
  | succ fuel ih =>
    intro l hl hnl acc
    match l with
    | [] => simp [splitBlankGo]
    | c :: rest =>
      have hc : c ≠ '\n' := fun hcc => hnl (by simp [hcc])
      rw [splitBlankGo]
      cases hsep : blankSepLen (c :: rest) with
      | some n =>
        rw [blankSepLen_cons_ne c rest hc] at hsep
        cases hsep
      | none =>
        dsimp only
        rw [ih rest (by simp at hl ⊢; omega) (fun hm => hnl (by simp [hm])) (c :: acc)]
        simp

theorem jsSplitBlank_no_newline (l : List Char) (h : '\n' ∉ l) :
    jsSplitBlank l = [l] := by
  rw [jsSplitBlank, splitBlankGo_no_newline l.length l le_rfl h []]
  simp

-- #### `splitByParagraphs` and `chunkText`

/-- Loop body of `splitByParagraphs`: state is `(chunks, currentChunk)`.
Mirrors:
```
const trimmed = para.trim();
if (!trimmed) continue;
if (currentChunk.length + trimmed.length + 2 > maxChunkChars && currentChunk) {
  chunks.push(currentChunk.trim());
  const overlap = currentChunk.slice(-overlapChars);
  currentChunk = overlap + '\n\n' + trimmed;
} else {
  currentChunk += (currentChunk ? '\n\n' : '') + trimmed;
}
``` -/
def paraStep (maxChunkChars overlapChars : Nat)
    (st : List (List Char) × List Char) (para : List Char) :
    List (List Char) × List Char :=
  let trimmed := jsTrim para
  if trimmed = [] then st
  else if maxChunkChars < st.2.length + trimmed.length + 2 ∧ st.2 ≠ [] then
    (st.1 ++ [jsTrim st.2], jsSliceNeg overlapChars st.2 ++ nl2 ++ trimmed)
  else
    (st.1, st.2 ++ (if st.2 = [] then [] else nl2) ++ trimmed)

/-- Chunks produced by the paragraph-accumulation loop of `splitByParagraphs`,
including the final `if (currentChunk.trim()) chunks.push(currentChunk.trim())`. -/
def paraChunks (text : List Char) (maxChunkChars overlapChars : Nat) :
    List (List Char) :=
  let st := (jsSplitBlank text).foldl (paraStep maxChunkChars overlapChars) ([], [])
  if jsTrim st.2 = [] then st.1 else st.1 ++ [jsTrim st.2]

/-- Fixed-width fallback loop
`for (let i = 0; i < cleaned.length; i += maxChunkChars - overlapChars)`.
A non-positive stride would make the source loop forever; the model returns
`[]` there (the branch is proved unreachable anyway, see the C10 theorem). -/
def charSlicesGo (cleaned : List Char) (maxChunkChars stride : Nat) :
    Nat → Nat → List (List Char)
  | 0, _ => []
  | fuel + 1, i =>
    if i < cleaned.length ∧ 0 < stride then
      jsTrim ((cleaned.drop i).take maxChunkChars) ::
        charSlicesGo cleaned maxChunkChars stride fuel (i + stride)
    else []

/-- Model of `splitByParagraphs`. -/
def splitByParagraphs (text : List Char) (maxChunkChars overlapChars : Nat) :
    List (List Char) :=
  let chunks := paraChunks text maxChunkChars overlapChars
  if chunks = [] ∧ 0 < (jsTrim text).length then
    charSlicesGo (jsTrim text) maxChunkChars (maxChunkChars - overlapChars)
      (jsTrim text).length 0
  else chunks

/-- Record for one emitted chunk (`TextChunk`); the `section` field is renamed
`sectionLabel` because `section` is a Lean keyword. -/
structure TextChunk where
  chunkIndex : Nat
  text : List Char
  sectionLabel : Option (List Char)
deriving DecidableEq, Repr

/-- Push with the source's index assignment `chunkIndex: chunks.length`. -/
def pushChunk (cs : List TextChunk) (t : List Char) (lbl : Option (List Char)) :
    List TextChunk :=
  cs ++ [⟨cs.length, t, lbl⟩]

/-- Span of one detected section: `start = sections[i].start`,
`stop = sections[i+1].start` (or `text.length` for the last), with its heading. -/
structure SectionSpan where
  start : Nat
  stop : Nat
  heading : Option (List Char)

/-- Consecutive spans determined by the detected boundaries. -/
def sectionSpans (textLen : Nat) : List Boundary → List SectionSpan
  | [] => []
  | [b] => [⟨b.start, textLen, b.heading⟩]
  | b :: b2 :: rest => ⟨b.start, b2.start, b.heading⟩ :: sectionSpans textLen (b2 :: rest)

/-- Model of `chunkText` (defaults `maxChunkChars = 6000`, `overlapChars = 200`). -/
def chunkText (text : List Char) (maxChunkChars : Nat := 6000)
    (overlapChars : Nat := 200) : List TextChunk :=
  let sections := detectSectionBoundaries text
  if 1 < sections.length then
    (sectionSpans text.length sections).foldl (fun cs sp =>
      let sectionText := jsTrim (jsSlice text sp.start sp.stop)
      if sectionText = [] then cs
      else if maxChunkChars < sectionText.length then
        (splitByParagraphs sectionText maxChunkChars overlapChars).foldl
          (fun cs2 sub => pushChunk cs2 sub sp.heading) cs
      else pushChunk cs sectionText sp.heading) []
  else
    (splitByParagraphs text maxChunkChars overlapChars).foldl
      (fun cs sub => pushChunk cs sub none) []

-- #### Auxiliary facts feeding the paragraph-loop invariant

theorem trimL_jsTrim (l : List Char) : trimL (jsTrim l) = jsTrim l := by
  have h1 := jsTrim_idem l
  rwa [jsTrim_eq_trimL (jsTrim l) (endsNonWs_jsTrim l)] at h1

theorem trimL_ne_nil_of_content (l : List Char) (h : contentOf l ≠ []) :
    trimL l ≠ [] := by
  intro hc
  exact h ((contentOf_eq_nil_iff l).mpr (all_ws_of_trimL_eq_nil l hc))

theorem nl2_all_ws : ∀ c ∈ nl2, isJsWs c = true := by decide

theorem jsTrim_ws_append (w t : List Char) (hw : ∀ c ∈ w, isJsWs c = true)
    (ht : jsTrim t = t) : jsTrim (w ++ t) = t := by
  by_cases htn : t = []
  · subst htn
    rw [List.append_nil]
    exact jsTrim_eq_nil_of_all_ws w hw
  · have hend : endsNonWs t := ht ▸ endsNonWs_jsTrim t
    rw [jsTrim_eq_trimL _ (endsNonWs_append w t htn hend),
      trimL_append_of_all_ws w t hw]
    rw [← ht, trimL_jsTrim, ht]

theorem jsSliceNeg_nil (n : Nat) : jsSliceNeg n [] = [] := by
  unfold jsSliceNeg
  split <;> simp

theorem contentOf_jsTrim_ne (p : List Char) (h : jsTrim p ≠ []) :
    contentOf (jsTrim p) ≠ [] := by
  rw [contentOf_jsTrim]
  exact contentOf_ne_nil_of_jsTrim_ne_nil p h

/-- Adjacent-chunk relation of the overlap invariant (C6, amended): the later
chunk starts with the left-trimmed `slice(-overlapChars)` of the earlier one. -/
def overlapRel (ov : Nat) (a b : List Char) : Prop :=
  (trimL (jsSliceNeg ov a)).isPrefixOf b = true

/-- Adjacent bound on the prefix lengths that must be dropped to undo the
injected overlaps (C7): at most the injected prefix (trimmed overlap plus the
two-character separator), and at most `overlapChars + 2` for positive overlap. -/
def dropBoundRel (ov : Nat) (p q : List Char × Nat) : Prop :=
  q.2 ≤ (trimL (jsSliceNeg ov p.1)).length + 2 ∧ (0 < ov → q.2 ≤ ov + 2)

/-- Invariant of the paragraph-accumulation loop of `splitByParagraphs`.
`st = (chunks, currentChunk)`, `L` bounds every processed paragraph's trimmed
length, and `done` is the non-whitespace content processed so far. -/
structure ParaInv (maxC ov L : Nat) (st : List (List Char) × List Char)
    (done : List Char) : Prop where
  curEnds : endsNonWs st.2
  curContent : st.2 ≠ [] → contentOf st.2 ≠ []
  neCur : st.1 ≠ [] → st.2 ≠ []
  chunksTrimmed : ∀ c ∈ st.1, jsTrim c = c ∧ contentOf c ≠ []
  sizeChunks : 0 < ov → ∀ c ∈ st.1, c.length ≤ max maxC (ov + 2 + L)
  sizeCur : 0 < ov → st.2.length ≤ max maxC (ov + 2 + L)
  chain : List.Chain' (overlapRel ov) st.1
  link : ∀ a, st.1.getLast? = some a →
    (trimL (jsSliceNeg ov a)).isPrefixOf (jsTrim st.2) = true
  decomp : ∃ drops : List Nat, ∃ dcur : Nat,
    drops.length = st.1.length ∧
    (st.1 = [] → dcur = 0) ∧
    (drops = [] ∨ drops.head? = some 0) ∧
    dcur ≤ (jsTrim st.2).length ∧
    List.Chain' (dropBoundRel ov) (st.1.zip drops) ∧
    (∀ a, st.1.getLast? = some a →
      dcur ≤ (trimL (jsSliceNeg ov a)).length + 2 ∧ (0 < ov → dcur ≤ ov + 2)) ∧
    contentOf ((List.zipWith (fun c d => c.drop d) st.1 drops).flatten ++
      (jsTrim st.2).drop dcur) = done

theorem paraInv_init (maxC ov L : Nat) : ParaInv maxC ov L ([], []) [] := by
  refine ⟨endsNonWs_nil, ?_, ?_, ?_, ?_, ?_, ?_, ?_, ?_⟩
  · intro h; cases h rfl
  · intro h; cases h rfl
  · intro c hc; cases hc
  · intro _ c hc; cases hc
  · intro _; simp
  · exact List.chain'_nil
  · intro a ha; cases ha
  · refine ⟨[], 0, rfl, fun _ => rfl, Or.inl rfl, by simp [jsTrim, trimR, trimL],
      List.chain'_nil, ?_, by simp [jsTrim, trimR, trimL, contentOf]⟩
    intro a ha
    cases ha

theorem jsTrim_buffer_append (cur t : List Char) (hend : endsNonWs cur)
    (hcontent : contentOf cur ≠ []) (ht : jsTrim t = t) (htn : t ≠ []) :
    jsTrim (cur ++ nl2 ++ t) = jsTrim cur ++ nl2 ++ t := by
  rw [jsTrim_append_chunk cur t (trimL_ne_nil_of_content cur hcontent) htn
    (ht ▸ endsNonWs_jsTrim t), jsTrim_eq_trimL cur hend]

theorem jsTrim_seed (o t : List Char) (ht : jsTrim t = t) (htn : t ≠ []) :
    jsTrim (o ++ nl2 ++ t) = if trimL o = [] then t else trimL o ++ nl2 ++ t := by
  by_cases ho : trimL o = []
  · rw [if_pos ho, List.append_assoc, ← List.append_assoc o nl2 t]
    rw [jsTrim_ws_append (o ++ nl2) t ?_ ht]
    intro c hc
    rcases List.mem_append.mp hc with h | h
    · exact all_ws_of_trimL_eq_nil o ho c h
    · exact nl2_all_ws c h
  · rw [if_neg ho]
    exact jsTrim_append_chunk o t ho htn (ht ▸ endsNonWs_jsTrim t)

theorem contentOf_seed_ne (x t : List Char) (h : contentOf t ≠ []) :
    contentOf (x ++ nl2 ++ t) ≠ [] := by
  intro hc
  rw [contentOf_append, List.append_eq_nil] at hc
  exact h hc.2

theorem drop_append_of_le (a b : List Char) (n : Nat) (h : n ≤ a.length) :
    (a ++ b).drop n = a.drop n ++ b := by
  rw [List.drop_append_eq_append_drop]
  have h0 : n - a.length = 0 := by omega
  rw [h0, List.drop_zero]

theorem chain'_append_singleton {α : Type} (R : α → α → Prop) (l : List α) (x : α)
    (hc : List.Chain' R l) (hlast : ∀ a, l.getLast? = some a → R a x) :
    List.Chain' R (l ++ [x]) := by
  rw [List.chain'_append]
  refine ⟨hc, List.chain'_singleton x, ?_⟩
  intro a ha y hy
  simp only [List.head?_cons, Option.mem_def, Option.some.injEq] at hy
  subst hy
  exact hlast a ha

theorem seed_ne_nil (o t : List Char) : o ++ nl2 ++ t ≠ [] := by
  simp [nl2]

theorem head?_append_left {α : Type} (l₁ l₂ : List α) (h : l₁ ≠ []) :
    (l₁ ++ l₂).head? = l₁.head? := by
  cases l₁ with
  | nil => cases h rfl
  | cons a as => simp

theorem zip_getLast?_fst {α β : Type} (l₁ : List α) :
    ∀ (l₂ : List β) (pr : α × β), l₁.length = l₂.length →
      (l₁.zip l₂).getLast? = some pr → l₁.getLast? = some pr.1 := by
  induction l₁ with
  | nil =>
    intro l₂ pr hlen h
    simp [List.zip] at h
  | cons a as ih =>
    intro l₂ pr hlen h
    cases l₂ with
    | nil => simp at hlen
    | cons b bs =>
      simp only [List.zip_cons_cons] at h
      cases as with
      | nil =>
        have hbs : bs = [] := by
          simp at hlen
          exact hlen

        subst hbs
        simp at h
        simp [← h]
      | cons a2 as2 =>
        cases bs with
        | nil => simp at hlen
        | cons b2 bs2 =>
          simp only [List.zip_cons_cons] at h ⊢
          rw [List.getLast?_cons_cons] at h ⊢
          have hlen2 : (a2 :: as2).length = (b2 :: bs2).length := by
            simp at hlen ⊢
            omega
          exact ih (b2 :: bs2) pr hlen2 (by simpa [List.zip_cons_cons] using h)

theorem paraStep_eq (maxC ov : Nat) (st : List (List Char) × List Char)
    (p : List Char) :
    paraStep maxC ov st p =
      if jsTrim p = [] then st
      else if maxC < st.2.length + (jsTrim p).length + 2 ∧ st.2 ≠ [] then
        (st.1 ++ [jsTrim st.2], jsSliceNeg ov st.2 ++ nl2 ++ jsTrim p)
      else (st.1, st.2 ++ (if st.2 = [] then [] else nl2) ++ jsTrim p) := rfl

theorem paraStep_inv (maxC ov L : Nat) (chunks : List (List Char))
    (cur : List Char) (done : List Char) (p : List Char)
    (hL : (jsTrim p).length ≤ L) (h : ParaInv maxC ov L (chunks, cur) done) :
    ParaInv maxC ov L (paraStep maxC ov (chunks, cur) p) (done ++ contentOf p) := by
  rw [paraStep_eq]
  dsimp only
  by_cases ht : jsTrim p = []
  · rw [if_pos ht]
    have hcp : contentOf p = [] := (jsTrim_eq_nil_iff p).mp ht
    rw [hcp, List.append_nil]
    exact h
  · rw [if_neg ht]
    have htt : jsTrim (jsTrim p) = jsTrim p := jsTrim_idem p
    have htends : endsNonWs (jsTrim p) := endsNonWs_jsTrim p
    have hct : contentOf (jsTrim p) ≠ [] := contentOf_jsTrim_ne p ht
    have hcp : contentOf (jsTrim p) = contentOf p := contentOf_jsTrim p
    by_cases hcond : maxC < cur.length + (jsTrim p).length + 2 ∧ cur ≠ []
    · -- flush branch
      rw [if_pos hcond]
      have hcurc : contentOf cur ≠ [] := h.curContent hcond.2
      have hjc : jsTrim cur ≠ [] := fun hh => hcurc ((jsTrim_eq_nil_iff cur).mp hh)
      have hseedtrim : jsTrim (jsSliceNeg ov cur ++ nl2 ++ jsTrim p) =
          if trimL (jsSliceNeg ov cur) = [] then jsTrim p
          else trimL (jsSliceNeg ov cur) ++ nl2 ++ jsTrim p :=
        jsTrim_seed _ _ htt ht
      have htlo : trimL (jsSliceNeg ov (jsTrim cur)) = trimL (jsSliceNeg ov cur) := by
        rw [jsTrim_eq_trimL cur h.curEnds]
        exact (trimL_jsSliceNeg_trimL ov cur h.curEnds).symm
      refine ⟨?_, ?_, ?_, ?_, ?_, ?_, ?_, ?_, ?_⟩
      · exact endsNonWs_append _ _ ht htends
      · intro _
        exact contentOf_seed_ne _ _ hct
      · intro _
        exact seed_ne_nil _ _
      · intro c hc
        rcases List.mem_append.mp hc with hin | hnew
        · exact h.chunksTrimmed c hin
        · rw [List.mem_singleton] at hnew
          subst hnew
          exact ⟨jsTrim_idem cur, contentOf_jsTrim_ne cur hjc⟩
      · intro hov c hc
        rcases List.mem_append.mp hc with hin | hnew
        · exact h.sizeChunks hov c hin
        · rw [List.mem_singleton] at hnew
          subst hnew
          exact le_trans (jsTrim_length_le cur) (h.sizeCur hov)
      · intro hov
        have h1 : (jsSliceNeg ov cur).length ≤ ov := length_jsSliceNeg_le ov cur hov
        simp only [List.length_append, nl2, List.length_cons, List.length_nil]
        have : (jsTrim p).length ≤ L := hL
        omega
      · exact chain'_append_singleton (overlapRel ov) chunks (jsTrim cur) h.chain
          (fun a ha => h.link a ha)
      · intro a ha
        rw [List.getLast?_concat] at ha
        injection ha with ha
        subst ha
        rw [htlo, hseedtrim]
        by_cases ho : trimL (jsSliceNeg ov cur) = []
        · rw [if_pos ho, ho]
          exact isPrefixOf_nil_left _
        · rw [if_neg ho, List.append_assoc]
          exact isPrefixOf_append_right _ _
      · obtain ⟨drops, dcur, hdl, hd0, hdh, hdle, hdchain, hdlink, hdcontent⟩ :=
          h.decomp
        refine ⟨drops ++ [dcur],
          if trimL (jsSliceNeg ov cur) = [] then 0
          else (trimL (jsSliceNeg ov cur)).length + 2, ?_, ?_, ?_, ?_, ?_, ?_, ?_⟩
        · simp [hdl]
        · intro hcc
          simp at hcc
        · right
          cases hchunks : chunks with
          | nil =>
            have hdnil : drops = [] := by
              rw [hchunks] at hdl
              exact List.length_eq_zero.mp hdl
            rw [hdnil, hd0 hchunks]
            rfl
          | cons c0 cs0 =>
            have hdne : drops ≠ [] := by
              intro hdn
              rw [hdn, hchunks] at hdl
              simp at hdl
            rw [head?_append_left drops [dcur] hdne]
            rcases hdh with hdn | hdh
            · cases hdne hdn
            · exact hdh
        · rw [hseedtrim]
          by_cases ho : trimL (jsSliceNeg ov cur) = []
          · rw [if_pos ho, if_pos ho]
            exact Nat.zero_le _
          · rw [if_neg ho, if_neg ho]
            simp only [List.length_append, nl2, List.length_cons, List.length_nil]
            omega
        · rw [List.zip_append hdl.symm]
          refine chain'_append_singleton (dropBoundRel ov) _ _ ?_ ?_
          · simpa using hdchain
          · intro pr hpr
            have hfst := zip_getLast?_fst chunks drops pr hdl.symm hpr
            have := hdlink pr.1 hfst
            simpa [dropBoundRel, List.zip_cons_cons] using this
        · intro a ha
          rw [List.getLast?_concat] at ha
          injection ha with ha
          subst ha
          rw [htlo]
          constructor
          · by_cases ho : trimL (jsSliceNeg ov cur) = []
            · rw [if_pos ho]
              exact Nat.zero_le _
            · rw [if_neg ho]
          · intro hov
            by_cases ho : trimL (jsSliceNeg ov cur) = []
            · rw [if_pos ho]
              omega
            · rw [if_neg ho]
              have h1 : (trimL (jsSliceNeg ov cur)).length ≤ (jsSliceNeg ov cur).length :=
                trimL_length_le _
              have h2 : (jsSliceNeg ov cur).length ≤ ov := length_jsSliceNeg_le ov cur hov
              omega
        · rw [List.zipWith_append _ _ _ _ _ hdl.symm]
          simp only [List.zipWith_cons_cons, List.zipWith_nil_right, List.zipWith]
          rw [List.flatten_append]
          simp only [List.flatten_cons, List.flatten_nil, List.append_nil]
          rw [hseedtrim]
          have hdropped : contentOf
              ((if trimL (jsSliceNeg ov cur) = [] then jsTrim p
                else trimL (jsSliceNeg ov cur) ++ nl2 ++ jsTrim p).drop
                (if trimL (jsSliceNeg ov cur) = [] then 0
                 else (trimL (jsSliceNeg ov cur)).length + 2)) = contentOf p := by
            by_cases ho : trimL (jsSliceNeg ov cur) = []
            · rw [if_pos ho, if_pos ho, List.drop_zero, hcp]
            · rw [if_neg ho, if_neg ho]
              have hsh : (trimL (jsSliceNeg ov cur)).length + 2 =
                  (trimL (jsSliceNeg ov cur)).length + 2 := rfl
              have : (trimL (jsSliceNeg ov cur) ++ nl2 ++ jsTrim p).drop
                  ((trimL (jsSliceNeg ov cur)).length + 2) = jsTrim p := by
                rw [List.append_assoc, List.drop_append 2]
                simp [nl2]
              rw [this, hcp]
          have hdc2 : contentOf
              (List.zipWith (fun c d => List.drop d c) chunks drops).flatten ++
              contentOf (List.drop dcur (jsTrim cur)) = done := by
            rw [← contentOf_append]
            exact hdcontent
          rw [List.append_assoc, contentOf_append, contentOf_append, hdropped,
            ← List.append_assoc, hdc2]
    · -- else branch
      rw [if_neg hcond]
      by_cases hcur : cur = []
      · -- empty buffer: currentChunk becomes the trimmed paragraph
        have hchunks : chunks = [] := by
          by_contra hcc
          exact (h.neCur hcc) hcur
        subst hcur
        subst hchunks
        show ParaInv maxC ov L ([], jsTrim p) (done ++ contentOf p)
        obtain ⟨drops, dcur, hdl, hd0, hdh, hdle, hdchain, hdlink, hdcontent⟩ :=
          h.decomp
        have hdnil : drops = [] := List.length_eq_zero.mp hdl
        have hdcur0 : dcur = 0 := hd0 rfl
        have hdone : done = [] := by
          rw [hdnil, hdcur0] at hdcontent
          simpa [jsTrim, trimR, trimL, contentOf] using hdcontent.symm
        refine ⟨htends, fun _ => hct, ?_, ?_, ?_, ?_, ?_, ?_, ?_⟩
        · intro hcc
          cases hcc rfl
        · intro c hc
          cases hc
        · intro _ c hc
          cases hc
        · intro _
          dsimp only
          exact le_trans (by omega) (le_max_right maxC (ov + 2 + L))
        · exact List.chain'_nil
        · intro a ha
          cases ha
        · refine ⟨[], 0, rfl, fun _ => rfl, Or.inl rfl, Nat.zero_le _,
            List.chain'_nil, ?_, ?_⟩
          · intro a ha
            cases ha
          · rw [hdone]
            simp only [List.zipWith_nil_right, List.flatten_nil, List.nil_append,
              List.drop_zero, htt, hcp]
      · -- non-empty buffer, paragraph fits: append it
        have hfit : cur.length + (jsTrim p).length + 2 ≤ maxC := by
          rcases Nat.lt_or_ge maxC (cur.length + (jsTrim p).length + 2) with hlt | hge
          · cases hcond ⟨hlt, hcur⟩
          · exact hge
        have hcurc : contentOf cur ≠ [] := h.curContent hcur
        have hjtrim : jsTrim (cur ++ nl2 ++ jsTrim p) = jsTrim cur ++ nl2 ++ jsTrim p :=
          jsTrim_buffer_append cur (jsTrim p) h.curEnds hcurc htt ht
        rw [if_neg hcur]
        refine ⟨?_, ?_, ?_, h.chunksTrimmed, h.sizeChunks, ?_, h.chain, ?_, ?_⟩
        · exact endsNonWs_append _ _ ht htends
        · intro _
          exact contentOf_seed_ne _ _ hct
        · intro _
          exact seed_ne_nil _ _
        · intro hov
          simp only [List.length_append, nl2, List.length_cons, List.length_nil]
          have h1 := h.sizeCur hov
          have h2 : (jsTrim p).length ≤ L := hL
          omega
        · intro a ha
          rw [hjtrim, List.append_assoc]
          exact isPrefixOf_extend _ _ _ (h.link a ha)
        · obtain ⟨drops, dcur, hdl, hd0, hdh, hdle, hdchain, hdlink, hdcontent⟩ :=
            h.decomp
          dsimp only at hdl hd0 hdle hdchain hdlink hdcontent
          refine ⟨drops, dcur, hdl, hd0, hdh, ?_, hdchain, hdlink, ?_⟩
          · rw [hjtrim]
            simp only [List.length_append]
            omega
          · dsimp only
            have hsplit : List.drop dcur (jsTrim cur ++ nl2 ++ jsTrim p) =
                List.drop dcur (jsTrim cur) ++ (nl2 ++ jsTrim p) := by
              rw [List.append_assoc]
              exact drop_append_of_le _ _ dcur hdle
            rw [hjtrim, hsplit, ← List.append_assoc, contentOf_append, hdcontent]
            have hnlp : contentOf (nl2 ++ jsTrim p) = contentOf p := by
              rw [contentOf_append, hcp]
              rfl
            rw [hnlp]

theorem paraFold_inv (maxC ov L : Nat) :
    ∀ (ps : List (List Char)) (st : List (List Char) × List Char) (done : List Char),
      ParaInv maxC ov L st done → (∀ p ∈ ps, (jsTrim p).length ≤ L) →
      ParaInv maxC ov L (ps.foldl (paraStep maxC ov) st)
        (done ++ (ps.map contentOf).flatten) := by
  intro ps
  induction ps with
  | nil =>
    intro st done h _
    simpa using h
  | cons p ps ih =>
    intro st done h hb
    obtain ⟨chunks, cur⟩ := st
    have h1 := paraStep_inv maxC ov L chunks cur done p (hb p (by simp)) h
    have h2 := ih (paraStep maxC ov (chunks, cur) p) (done ++ contentOf p) h1
      (fun q hq => hb q (by simp [hq]))
    simpa [List.append_assoc] using h2

theorem le_foldr_max (l : List Nat) (x : Nat) (hx : x ∈ l) : x ≤ l.foldr max 0 := by
  induction l with
  | nil => cases hx
  | cons a as ih =>
    rcases List.mem_cons.mp hx with heq | htail
    · subst heq
      exact le_max_left x (as.foldr max 0)
    · exact le_trans (ih htail) (le_max_right a (as.foldr max 0))

/-- Longest trimmed-paragraph length of a text (the bound `L` in the amended
chunk-size claim C5). -/
def maxParaLen (s : List Char) : Nat :=
  ((jsSplitBlank s).map (fun p => (jsTrim p).length)).foldr max 0

theorem le_maxParaLen (s p : List Char) (hp : p ∈ jsSplitBlank s) :
    (jsTrim p).length ≤ maxParaLen s :=
  le_foldr_max _ _ (List.mem_map_of_mem _ hp)

/-- Combined facts about the paragraph-loop chunks, obtained from the loop
invariant.  `L` is any bound on the trimmed paragraph lengths. -/
theorem paraChunks_facts (text : List Char) (maxC ov L : Nat)
    (hLb : ∀ p ∈ jsSplitBlank text, (jsTrim p).length ≤ L) :
    (∀ c ∈ paraChunks text maxC ov, jsTrim c = c ∧ contentOf c ≠ []) ∧
    (0 < ov → ∀ c ∈ paraChunks text maxC ov, c.length ≤ max maxC (ov + 2 + L)) ∧
    List.Chain' (overlapRel ov) (paraChunks text maxC ov) ∧
    (∃ drops : List Nat,
      drops.length = (paraChunks text maxC ov).length ∧
      (drops = [] ∨ drops.head? = some 0) ∧
      List.Chain' (dropBoundRel ov) ((paraChunks text maxC ov).zip drops) ∧
      contentOf (List.zipWith (fun c d => c.drop d)
        (paraChunks text maxC ov) drops).flatten = contentOf text) ∧
    (paraChunks text maxC ov = [] → contentOf text = []) := by
  have hinv := paraFold_inv maxC ov L (jsSplitBlank text) ([], []) []
    (paraInv_init maxC ov L) hLb
  rw [List.nil_append, jsSplitBlank_content] at hinv
  obtain ⟨hEnds, hCont, hNe, hTr, hSzC, hSzCur, hChain, hLink, hDec⟩ := hinv
  obtain ⟨drops, dcur, hdl, hd0, hdh, hdle, hdchain, hdlink, hdcontent⟩ := hDec
  set st := (jsSplitBlank text).foldl (paraStep maxC ov) ([], []) with hst
  have hpc : paraChunks text maxC ov =
      if jsTrim st.2 = [] then st.1 else st.1 ++ [jsTrim st.2] := rfl
  by_cases hz : jsTrim st.2 = []
  · rw [hpc, if_pos hz]
    have hdc0 : dcur = 0 := by
      rw [hz] at hdle
      simpa using hdle
    rw [hz, hdc0] at hdcontent
    simp only [List.drop_nil, List.append_nil] at hdcontent
    refine ⟨hTr, hSzC, hChain, ⟨drops, hdl, hdh, hdchain, hdcontent⟩, ?_⟩
    · intro hnil
      rw [hnil] at hdl
      have hdnil : drops = [] := List.length_eq_zero.mp hdl
      rw [hnil, hdnil] at hdcontent
      simpa using hdcontent.symm
  · rw [hpc, if_neg hz]
    have hjne : st.2 ≠ [] := by
      intro hh
      rw [hh] at hz
      exact hz (by simp [jsTrim, trimR, trimL])
    refine ⟨?_, ?_, ?_, ?_, ?_⟩
    · intro c hc
      rcases List.mem_append.mp hc with hin | hnew
      · exact hTr c hin
      · rw [List.mem_singleton] at hnew
        subst hnew
        exact ⟨jsTrim_idem st.2, contentOf_jsTrim_ne st.2 hz⟩
    · intro hov c hc
      rcases List.mem_append.mp hc with hin | hnew
      · exact hSzC hov c hin
      · rw [List.mem_singleton] at hnew
        subst hnew
        exact le_trans (jsTrim_length_le st.2) (hSzCur hov)
    · exact chain'_append_singleton (overlapRel ov) st.1 (jsTrim st.2) hChain hLink
    · refine ⟨drops ++ [dcur], by simp [hdl], ?_, ?_, ?_⟩
      · right
        cases hchunks : st.1 with
        | nil =>
          have hdnil : drops = [] := by
            rw [hchunks] at hdl
            exact List.length_eq_zero.mp hdl
          rw [hdnil, hd0 hchunks]
          rfl
        | cons c0 cs0 =>
          have hdne : drops ≠ [] := by
            intro hdn
            rw [hdn, hchunks] at hdl
            simp at hdl
          rw [head?_append_left drops [dcur] hdne]
          rcases hdh with hdn | hdh2
          · cases hdne hdn
          · exact hdh2
      · rw [List.zip_append hdl.symm]
        refine chain'_append_singleton (dropBoundRel ov) _ _ ?_ ?_
        · simpa using hdchain
        · intro pr hpr
          have hfst := zip_getLast?_fst st.1 drops pr hdl.symm hpr
          have := hdlink pr.1 hfst
          simpa [dropBoundRel] using this
      · rw [List.zipWith_append _ _ _ _ _ hdl.symm]
        simp only [List.zipWith_cons_cons, List.zipWith_nil_right, List.zipWith,
          List.flatten_append, List.flatten_cons, List.flatten_nil, List.append_nil]
        exact hdcontent
    · intro hnil
      simp at hnil

theorem splitByParagraphs_def (text : List Char) (maxC ov : Nat) :
    splitByParagraphs text maxC ov =
      if paraChunks text maxC ov = [] ∧ 0 < (jsTrim text).length then
        charSlicesGo (jsTrim text) maxC (maxC - ov) (jsTrim text).length 0
      else paraChunks text maxC ov := rfl

/-- Central dead-code fact: the character-count fallback of `splitByParagraphs`
is unreachable, because the paragraph loop emits no chunk only when the whole
text is whitespace, in which case the fallback guard is also false. -/
theorem splitByParagraphs_eq_paraChunks (text : List Char) (maxC ov : Nat) :
    splitByParagraphs text maxC ov = paraChunks text maxC ov := by
  rw [splitByParagraphs_def]
  by_cases hc : paraChunks text maxC ov = [] ∧ 0 < (jsTrim text).length
  · exfalso
    have hfacts := paraChunks_facts text maxC ov (maxParaLen text)
      (fun p hp => le_maxParaLen text p hp)
    have hcontent : contentOf text = [] := hfacts.2.2.2.2 hc.1
    have : jsTrim text = [] := (jsTrim_eq_nil_iff text).mpr hcontent
    rw [this] at hc
    simp at hc
  · rw [if_neg hc]

-- #### Normal form of `chunkText`: pieces plus index enumeration

/-- Text pieces (with heading label) contributed by one section span. -/
def spanPieces (text : List Char) (maxC ov : Nat) (sp : SectionSpan) :
    List (List Char × Option (List Char)) :=
  let sectionText := jsTrim (jsSlice text sp.start sp.stop)
  if sectionText = [] then []
  else if maxC < sectionText.length then
    (splitByParagraphs sectionText maxC ov).map (fun s => (s, sp.heading))
  else [(sectionText, sp.heading)]

/-- All text pieces emitted by `chunkText`, in order, before index assignment. -/
def piecesOf (text : List Char) (maxC ov : Nat) :
    List (List Char × Option (List Char)) :=
  let sections := detectSectionBoundaries text
  if 1 < sections.length then
    (sectionSpans text.length sections).flatMap (spanPieces text maxC ov)
  else (splitByParagraphs text maxC ov).map (fun s => (s, none))

/-- Enumeration of pieces into `TextChunk`s with indices starting at `k`. -/
def enumChunksFrom (k : Nat) : List (List Char × Option (List Char)) → List TextChunk
  | [] => []
  | (t, l) :: rest => ⟨k, t, l⟩ :: enumChunksFrom (k + 1) rest

theorem length_enumChunksFrom (k : Nat) (ps : List (List Char × Option (List Char))) :
    (enumChunksFrom k ps).length = ps.length := by
  induction ps generalizing k with
  | nil => rfl
  | cons p rest ih =>
    obtain ⟨t, l⟩ := p
    simp [enumChunksFrom, ih]

theorem enumChunksFrom_append (k : Nat)
    (a b : List (List Char × Option (List Char))) :
    enumChunksFrom k (a ++ b) = enumChunksFrom k a ++ enumChunksFrom (k + a.length) b := by
  induction a generalizing k with
  | nil => simp [enumChunksFrom]
  | cons p rest ih =>
    obtain ⟨t, l⟩ := p
    simp only [List.cons_append, enumChunksFrom, List.append_eq]
    rw [ih (k + 1)]
    simp only [List.length_cons]
    congr 3
    omega

theorem foldl_push_map (subs : List (List Char)) (lbl : Option (List Char)) :
    ∀ cs : List TextChunk, subs.foldl (fun a s => pushChunk a s lbl) cs =
      cs ++ enumChunksFrom cs.length (subs.map (fun s => (s, lbl))) := by
  induction subs with
  | nil =>
    intro cs
    simp [enumChunksFrom]
  | cons s rest ih =>
    intro cs
    rw [List.foldl_cons, List.map_cons]
    rw [ih (pushChunk cs s lbl)]
    simp only [pushChunk, enumChunksFrom, List.length_append, List.length_cons,
      List.length_nil]
    rw [List.append_assoc]
    rfl

theorem chunkText_fold_eq (text : List Char) (maxC ov : Nat) :
    ∀ (spans : List SectionSpan) (cs : List TextChunk),
      spans.foldl (fun cs sp =>
        let sectionText := jsTrim (jsSlice text sp.start sp.stop)
        if sectionText = [] then cs
        else if maxC < sectionText.length then
          (splitByParagraphs sectionText maxC ov).foldl
            (fun cs2 sub => pushChunk cs2 sub sp.heading) cs
        else pushChunk cs sectionText sp.heading) cs =
      cs ++ enumChunksFrom cs.length (spans.flatMap (spanPieces text maxC ov)) := by
  intro spans
  induction spans with
  | nil =>
    intro cs
    simp [enumChunksFrom]
  | cons sp rest ih =>
    intro cs
    rw [List.foldl_cons, List.flatMap_cons]
    dsimp only
    by_cases h1 : jsTrim (jsSlice text sp.start sp.stop) = []
    · have hsp : spanPieces text maxC ov sp = [] := by
        rw [spanPieces]
        simp only [h1, if_pos]
      rw [if_pos h1, hsp, List.nil_append, ih cs]
    · by_cases h2 : maxC < (jsTrim (jsSlice text sp.start sp.stop)).length
      · have hsp : spanPieces text maxC ov sp =
            (splitByParagraphs (jsTrim (jsSlice text sp.start sp.stop)) maxC ov).map
              (fun s => (s, sp.heading)) := by
          rw [spanPieces]
          rw [if_neg h1, if_pos h2]
        rw [if_neg h1, if_pos h2, foldl_push_map _ _ cs, ih, hsp]
        rw [enumChunksFrom_append, List.append_assoc]
        congr 2
        rw [List.length_append, length_enumChunksFrom, List.length_map]
      · have hsp : spanPieces text maxC ov sp =
            [(jsTrim (jsSlice text sp.start sp.stop), sp.heading)] := by
          rw [spanPieces]
          rw [if_neg h1, if_neg h2]
        rw [if_neg h1, if_neg h2, ih, hsp]
        simp only [pushChunk, enumChunksFrom_append, enumChunksFrom,
          List.length_append, List.length_cons, List.length_nil, List.append_assoc]
        rfl

theorem chunkText_eq_enum (text : List Char) (maxC ov : Nat) :
    chunkText text maxC ov = enumChunksFrom 0 (piecesOf text maxC ov) := by
  rw [chunkText, piecesOf]
  by_cases hs : 1 < (detectSectionBoundaries text).length
  · simp only [hs, if_pos, ite_true]
    have := chunkText_fold_eq text maxC ov
      (sectionSpans text.length (detectSectionBoundaries text)) []
    simpa using this
  · simp only [hs, if_neg, ite_false]
    have := foldl_push_map (splitByParagraphs text maxC ov) none []
    simpa using this

theorem enumChunksFrom_map_text (k : Nat)
    (ps : List (List Char × Option (List Char))) :
    (enumChunksFrom k ps).map (fun c => c.text) = ps.map (fun pr => pr.1) := by
  induction ps generalizing k with
  | nil => rfl
  | cons p rest ih =>
    obtain ⟨t, l⟩ := p
    simp [enumChunksFrom, ih]

theorem enumChunksFrom_map_idx (k : Nat)
    (ps : List (List Char × Option (List Char))) :
    (enumChunksFrom k ps).map (fun c => c.chunkIndex) = List.range' k ps.length := by
  induction ps generalizing k with
  | nil => rfl
  | cons p rest ih =>
    obtain ⟨t, l⟩ := p
    simp [enumChunksFrom, ih, List.range']

theorem mem_enumChunksFrom (k : Nat) (ps : List (List Char × Option (List Char)))
    (c : TextChunk) (hc : c ∈ enumChunksFrom k ps) : (c.text, c.sectionLabel) ∈ ps := by
  induction ps generalizing k with
  | nil => cases hc
  | cons p rest ih =>
    obtain ⟨t, l⟩ := p
    rcases List.mem_cons.mp hc with heq | htail
    · subst heq
      simp
    · exact List.mem_cons_of_mem _ (ih (k + 1) htail)

-- #### Facts about `detectSectionBoundaries`

theorem mem_insertBoundary (b x : Boundary) (l : List Boundary) :
    x ∈ insertBoundary b l ↔ x = b ∨ x ∈ l := by
  induction l with
  | nil => simp [insertBoundary]
  | cons y ys ih =>
    rw [insertBoundary]
    by_cases h : b.start ≤ y.start
    · simp [h]
    · rw [if_neg h]
      simp only [List.mem_cons, ih]
      tauto

theorem mem_sortBoundaries (x : Boundary) (l : List Boundary) :
    x ∈ sortBoundaries l ↔ x ∈ l := by
  induction l with
  | nil => simp [sortBoundaries]
  | cons y ys ih =>
    rw [sortBoundaries, mem_insertBoundary]
    simp [ih]

theorem insertBoundary_zero (b : Boundary) (hb : b.start = 0) (l : List Boundary) :
    insertBoundary b l = b :: l := by
  cases l with
  | nil => rfl
  | cons x xs =>
    rw [insertBoundary, if_pos (by omega)]

/-- Named form of the dedup fold body. -/
def dedupStep (acc : List Boundary) (b : Boundary) : List Boundary :=
  match acc.getLast? with
  | none => acc ++ [b]
  | some last => if 50 < b.start - last.start then acc ++ [b] else acc

theorem dedupBoundaries_eq (l : List Boundary) :
    dedupBoundaries l = l.foldl dedupStep [] := rfl

/-- The dedup fold only ever appends to its accumulator. -/
theorem dedup_foldl_prefix (l : List Boundary) :
    ∀ acc, ∃ t, l.foldl dedupStep acc = acc ++ t := by
  induction l with
  | nil =>
    intro acc
    exact ⟨[], by simp⟩
  | cons b rest ih =>
    intro acc
    rw [List.foldl_cons, dedupStep]
    cases hl : acc.getLast? with
    | none =>
      obtain ⟨t, ht⟩ := ih (acc ++ [b])
      exact ⟨[b] ++ t, by rw [← List.append_assoc]; simpa using ht⟩
    | some last =>
      by_cases hgap : 50 < b.start - last.start
      · obtain ⟨t, ht⟩ := ih (acc ++ [b])
        refine ⟨[b] ++ t, ?_⟩
        rw [← List.append_assoc]
        simpa [hgap] using ht
      · obtain ⟨t, ht⟩ := ih acc
        refine ⟨t, ?_⟩
        simpa [hgap] using ht

theorem dedup_foldl_chain (l : List Boundary) :
    ∀ acc, List.Chain' (fun a b => a.start < b.start) acc →
      List.Chain' (fun a b => a.start < b.start) (l.foldl dedupStep acc) := by
  induction l with
  | nil =>
    intro acc h
    exact h
  | cons b rest ih =>
    intro acc h
    rw [List.foldl_cons, dedupStep]
    cases hl : acc.getLast? with
    | none =>
      have hacc : acc = [] := by
        cases acc with
        | nil => rfl
        | cons x xs => simp [List.getLast?_eq_getLast] at hl
      subst hacc
      exact ih [b] (List.chain'_singleton b)
    | some last =>
      by_cases hgap : 50 < b.start - last.start
      · simp only [hgap, if_pos, ite_true]
        apply ih
        apply chain'_append_singleton _ _ _ h
        intro a ha
        rw [ha] at hl
        injection hl with hl
        subst hl
        omega
      · simp only [hgap, ite_false]
        exact ih acc h

theorem dedup_foldl_subset (P : Boundary → Prop) (l : List Boundary) :
    ∀ acc, (∀ x ∈ acc, P x) → (∀ x ∈ l, P x) →
      ∀ x ∈ l.foldl dedupStep acc, P x := by
  induction l with
  | nil =>
    intro acc hacc _ x hx
    exact hacc x hx
  | cons b rest ih =>
    intro acc hacc hl x hx
    rw [List.foldl_cons, dedupStep] at hx
    have hb : P b := hl b (by simp)
    have hrest : ∀ y ∈ rest, P y := fun y hy => hl y (by simp [hy])
    cases hlast : acc.getLast? with
    | none =>
      rw [hlast] at hx
      dsimp only at hx
      refine ih (acc ++ [b]) ?_ hrest x hx
      intro y hy
      rcases List.mem_append.mp hy with h | h
      · exact hacc y h
      · rw [List.mem_singleton] at h
        subst h
        exact hb
    | some last =>
      rw [hlast] at hx
      dsimp only at hx
      by_cases hgap : 50 < b.start - last.start
      · rw [if_pos hgap] at hx
        refine ih (acc ++ [b]) ?_ hrest x hx
        intro y hy
        rcases List.mem_append.mp hy with h | h
        · exact hacc y h
        · rw [List.mem_singleton] at h
          subst h
          exact hb
      · rw [if_neg hgap] at hx
        exact ih acc hacc hrest x hx

theorem detect_def (text : List Char) : detectSectionBoundaries text =
    dedupBoundaries (sortBoundaries (⟨0, none⟩ :: headingPatterns.flatMap (fun pr =>
      (scanPattern pr.1 true 0 text).map fun im => ⟨im.1, some (pr.2 im.2)⟩))) := rfl

theorem detect_head (text : List Char) :
    ∃ rest, detectSectionBoundaries text = ⟨0, none⟩ :: rest := by
  rw [detect_def, sortBoundaries, insertBoundary_zero ⟨0, none⟩ rfl,
    dedupBoundaries_eq, List.foldl_cons]
  have hstep : dedupStep [] ⟨0, none⟩ = [⟨0, none⟩] := rfl
  rw [hstep]
  obtain ⟨t, ht⟩ := dedup_foldl_prefix
    (sortBoundaries (headingPatterns.flatMap (fun pr =>
      (scanPattern pr.1 true 0 text).map fun im => ⟨im.1, some (pr.2 im.2)⟩))) [⟨0, none⟩]
  exact ⟨t, by simpa using ht⟩

theorem detect_ascending (text : List Char) :
    List.Chain' (fun a b => a.start < b.start) (detectSectionBoundaries text) := by
  rw [detect_def, dedupBoundaries_eq]
  exact dedup_foldl_chain _ [] List.chain'_nil

theorem detect_bounded (text : List Char) :
    ∀ b ∈ detectSectionBoundaries text, b.start ≤ text.length := by
  rw [detect_def, dedupBoundaries_eq]
  apply dedup_foldl_subset (fun b => b.start ≤ text.length)
  · intro x hx
    cases hx
  · intro x hx
    rw [mem_sortBoundaries] at hx
    rcases List.mem_cons.mp hx with heq | hmem
    · subst heq
      exact Nat.zero_le _
    · rw [List.mem_flatMap] at hmem
      obtain ⟨pr, _, hxm⟩ := hmem
      rw [List.mem_map] at hxm
      obtain ⟨im, him, hxe⟩ := hxm
      have := scanPattern_pos_bound pr.1 text true 0 im him
      subst hxe
      simp only []
      omega

theorem slice_glue (l : List Char) (s s2 : Nat) (h1 : s ≤ s2) (h2 : s2 ≤ l.length) :
    (l.take s2).drop s ++ l.drop s2 = l.drop s := by
  conv_rhs => rw [← List.take_append_drop s2 l]
  rw [drop_append_of_le]
  rw [List.length_take]
  omega

theorem sectionSpans_cover (text : List Char) :
    ∀ (bs : List Boundary) (b0 : Boundary) (rest : List Boundary),
      bs = b0 :: rest →
      List.Chain' (fun a b => a.start < b.start) bs →
      (∀ b ∈ bs, b.start ≤ text.length) →
      ((sectionSpans text.length bs).map
        (fun sp => jsSlice text sp.start sp.stop)).flatten = text.drop b0.start := by
  intro bs
  induction bs with
  | nil =>
    intro b0 rest h
    cases h
  | cons b bs2 ih =>
    intro b0 rest h hchain hbound
    injection h with h1 h2
    subst h1
    cases bs2 with
    | nil =>
      simp only [sectionSpans, List.map_cons, List.map_nil, List.flatten_cons,
        List.flatten_nil, List.append_nil, jsSlice]
      rw [List.take_length]
    | cons b2 bs3 =>
      rw [sectionSpans]
      simp only [List.map_cons, List.flatten_cons]
      have hchain2 : List.Chain' (fun a b => a.start < b.start) (b2 :: bs3) :=
        hchain.tail
      have hb2 : b.start < b2.start := by
        rcases hchain with _ | ⟨hrel, _⟩
        · exact hrel
      have := ih b2 bs3 rfl hchain2 (fun x hx => hbound x (by simp [hx]))
      rw [this, jsSlice]
      exact slice_glue text b.start b2.start (le_of_lt hb2)
        (hbound b2 (by simp))

-- #### Lifting the drop decomposition from paragraph chunks to chunkText

theorem drops_append_facts (ov : Nat) (A B : List (List Char)) (dA dB : List Nat)
    (hlA : dA.length = A.length) (hlB : dB.length = B.length)
    (hA0 : dA = [] ∨ dA.head? = some 0) (hB0 : dB = [] ∨ dB.head? = some 0)
    (hcA : List.Chain' (dropBoundRel ov) (A.zip dA))
    (hcB : List.Chain' (dropBoundRel ov) (B.zip dB)) :
    (dA ++ dB).length = (A ++ B).length ∧
    (dA ++ dB = [] ∨ (dA ++ dB).head? = some 0) ∧
    List.Chain' (dropBoundRel ov) ((A ++ B).zip (dA ++ dB)) := by
  refine ⟨by simp [hlA, hlB], ?_, ?_⟩
  · cases dA with
    | nil => simpa using hB0
    | cons d ds =>
      rcases hA0 with h | h
      · cases h
      · right
        simpa using h
  · rw [List.zip_append hlA.symm, List.chain'_append]
    refine ⟨hcA, hcB, ?_⟩
    intro x hx y hy
    cases B with
    | nil => simp at hy
    | cons b B2 =>
      cases dB with
      | nil => simp at hlB
      | cons d dB2 =>
        simp only [List.zip_cons_cons, List.head?_cons, Option.mem_def,
          Option.some.injEq] at hy
        rcases hB0 with hB | hB
        · cases hB
        · simp only [List.head?_cons, Option.some.injEq] at hB
          subst hy
          exact ⟨by simp [hB], fun _ => by simp [hB]⟩

theorem spanPieces_def (text : List Char) (maxC ov : Nat) (sp : SectionSpan) :
    spanPieces text maxC ov sp =
      if jsTrim (jsSlice text sp.start sp.stop) = [] then []
      else if maxC < (jsTrim (jsSlice text sp.start sp.stop)).length then
        (splitByParagraphs (jsTrim (jsSlice text sp.start sp.stop)) maxC ov).map
          (fun s => (s, sp.heading))
      else [(jsTrim (jsSlice text sp.start sp.stop), sp.heading)] := rfl

theorem spanPieces_drops (text : List Char) (maxC ov : Nat) (sp : SectionSpan) :
    ∃ drops : List Nat,
      drops.length = ((spanPieces text maxC ov sp).map Prod.fst).length ∧
      (drops = [] ∨ drops.head? = some 0) ∧
      List.Chain' (dropBoundRel ov)
        (((spanPieces text maxC ov sp).map Prod.fst).zip drops) ∧
      contentOf (List.zipWith (fun t d => t.drop d)
        ((spanPieces text maxC ov sp).map Prod.fst) drops).flatten =
      contentOf (jsSlice text sp.start sp.stop) := by
  rw [spanPieces_def]
  by_cases h1 : jsTrim (jsSlice text sp.start sp.stop) = []
  · rw [if_pos h1]
    refine ⟨[], by simp, Or.inl rfl, by simp, ?_⟩
    rw [← contentOf_jsTrim (jsSlice text sp.start sp.stop), h1]
    simp [contentOf]
  · rw [if_neg h1]
    by_cases h2 : maxC < (jsTrim (jsSlice text sp.start sp.stop)).length
    · rw [if_pos h2, splitByParagraphs_eq_paraChunks]
      have hmap : ((paraChunks (jsTrim (jsSlice text sp.start sp.stop)) maxC ov).map
          (fun s => (s, sp.heading))).map Prod.fst =
          paraChunks (jsTrim (jsSlice text sp.start sp.stop)) maxC ov := by
        rw [List.map_map]
        exact List.map_id _
      rw [hmap]
      obtain ⟨_, _, _, hdec, _⟩ := paraChunks_facts (jsTrim (jsSlice text sp.start sp.stop))
        maxC ov (maxParaLen (jsTrim (jsSlice text sp.start sp.stop)))
        (fun p hp => le_maxParaLen _ p hp)
      obtain ⟨drops, hl, h0, hc, hcont⟩ := hdec
      refine ⟨drops, hl, h0, hc, ?_⟩
      rw [hcont, contentOf_jsTrim]
    · rw [if_neg h2]
      refine ⟨[0], by simp, Or.inr rfl, ?_, ?_⟩
      · simp only [List.map_cons, List.map_nil, List.zip_cons_cons, List.zip_nil_right]
        exact List.chain'_singleton _
      · simp only [List.map_cons, List.map_nil, List.zipWith_cons_cons,
          List.zipWith_nil_right, List.drop_zero, List.flatten_cons, List.flatten_nil,
          List.append_nil]
        exact contentOf_jsTrim _

theorem spans_pieces_drops (text : List Char) (maxC ov : Nat)
    (spans : List SectionSpan) :
    ∃ drops : List Nat,
      drops.length = ((spans.flatMap (spanPieces text maxC ov)).map Prod.fst).length ∧
      (drops = [] ∨ drops.head? = some 0) ∧
      List.Chain' (dropBoundRel ov)
        (((spans.flatMap (spanPieces text maxC ov)).map Prod.fst).zip drops) ∧
      contentOf (List.zipWith (fun t d => t.drop d)
        ((spans.flatMap (spanPieces text maxC ov)).map Prod.fst) drops).flatten =
      contentOf ((spans.map (fun sp => jsSlice text sp.start sp.stop)).flatten) := by
  induction spans with
  | nil => exact ⟨[], by simp, Or.inl rfl, by simp, by simp [contentOf]⟩
  | cons sp rest ih =>
    obtain ⟨dA, hlA, hA0, hcA, hcontA⟩ := spanPieces_drops text maxC ov sp
    obtain ⟨dB, hlB, hB0, hcB, hcontB⟩ := ih
    rw [List.flatMap_cons, List.map_append]
    obtain ⟨hl, h0, hc⟩ := drops_append_facts ov _ _ dA dB hlA hlB hA0 hB0 hcA hcB
    refine ⟨dA ++ dB, hl, h0, hc, ?_⟩
    rw [List.zipWith_append _ _ _ _ _ hlA.symm, List.flatten_append, contentOf_append,
      hcontA, hcontB, List.map_cons, List.flatten_cons, contentOf_append]

theorem piecesOf_def (text : List Char) (maxC ov : Nat) :
    piecesOf text maxC ov =
      if 1 < (detectSectionBoundaries text).length then
        (sectionSpans text.length (detectSectionBoundaries text)).flatMap
          (spanPieces text maxC ov)
      else (splitByParagraphs text maxC ov).map (fun s => (s, none)) := rfl

theorem piecesOf_drops (text : List Char) (maxC ov : Nat) :
    ∃ drops : List Nat,
      drops.length = ((piecesOf text maxC ov).map Prod.fst).length ∧
      (drops = [] ∨ drops.head? = some 0) ∧
      List.Chain' (dropBoundRel ov) (((piecesOf text maxC ov).map Prod.fst).zip drops) ∧
      contentOf (List.zipWith (fun t d => t.drop d)
        ((piecesOf text maxC ov).map Prod.fst) drops).flatten = contentOf text := by
  rw [piecesOf_def]
  by_cases hs : 1 < (detectSectionBoundaries text).length
  · rw [if_pos hs]
    obtain ⟨drops, hl, h0, hc, hcont⟩ := spans_pieces_drops text maxC ov
      (sectionSpans text.length (detectSectionBoundaries text))
    refine ⟨drops, hl, h0, hc, ?_⟩
    rw [hcont]
    obtain ⟨rest, hrest⟩ := detect_head text
    have hcover := sectionSpans_cover text (detectSectionBoundaries text) ⟨0, none⟩ rest
      hrest (detect_ascending text) (detect_bounded text)
    rw [hcover]
    rfl
  · rw [if_neg hs, splitByParagraphs_eq_paraChunks]
    have hmap : ((paraChunks text maxC ov).map
        (fun s => (s, (none : Option (List Char))))).map Prod.fst =
        paraChunks text maxC ov := by
      rw [List.map_map]
      exact List.map_id _
    rw [hmap]
    obtain ⟨_, _, _, hdec, _⟩ := paraChunks_facts text maxC ov (maxParaLen text)
      (fun p hp => le_maxParaLen text p hp)
    exact hdec

theorem piecesOf_ne_nil (text : List Char) (maxC ov : Nat)
    (h : contentOf text ≠ []) : piecesOf text maxC ov ≠ [] := by
  intro hnil
  obtain ⟨drops, hl, h0, hc, hcont⟩ := piecesOf_drops text maxC ov
  rw [hnil] at hcont
  simp only [List.map_nil, List.zipWith_nil_left, List.flatten_nil] at hcont
  exact h hcont.symm

theorem mem_piecesOf_trimmed (text : List Char) (maxC ov : Nat)
    (pr : List Char × Option (List Char)) (hpr : pr ∈ piecesOf text maxC ov) :
    jsTrim pr.1 = pr.1 ∧ contentOf pr.1 ≠ [] := by
  rw [piecesOf_def] at hpr
  by_cases hs : 1 < (detectSectionBoundaries text).length
  · rw [if_pos hs] at hpr
    rw [List.mem_flatMap] at hpr
    obtain ⟨sp, _, hmem⟩ := hpr
    rw [spanPieces_def] at hmem
    by_cases h1 : jsTrim (jsSlice text sp.start sp.stop) = []
    · rw [if_pos h1] at hmem
      cases hmem
    · rw [if_neg h1] at hmem
      by_cases h2 : maxC < (jsTrim (jsSlice text sp.start sp.stop)).length
      · rw [if_pos h2, splitByParagraphs_eq_paraChunks] at hmem
        rw [List.mem_map] at hmem
        obtain ⟨s, hsin, hse⟩ := hmem
        obtain ⟨htr, _, _, _, _⟩ := paraChunks_facts (jsTrim (jsSlice text sp.start sp.stop))
          maxC ov (maxParaLen (jsTrim (jsSlice text sp.start sp.stop)))
          (fun p hp => le_maxParaLen _ p hp)
        subst hse
        exact htr s hsin
      · rw [if_neg h2] at hmem
        rw [List.mem_singleton] at hmem
        subst hmem
        exact ⟨jsTrim_idem _, contentOf_jsTrim_ne _ h1⟩
  · rw [if_neg hs, splitByParagraphs_eq_paraChunks] at hpr
    rw [List.mem_map] at hpr
    obtain ⟨s, hsin, hse⟩ := hpr
    obtain ⟨htr, _, _, _, _⟩ := paraChunks_facts text maxC ov (maxParaLen text)
      (fun p hp => le_maxParaLen text p hp)
    subst hse
    exact htr s hsin

/-- The section texts that `chunkText` feeds to its paragraph-chunking step:
when more than one boundary is detected, the trimmed slice of each section
span; otherwise the whole input (the single-section path splits `text`
directly). -/
def sectionSourceTexts (text : List Char) : List (List Char) :=
  let sections := detectSectionBoundaries text
  if 1 < sections.length then
    (sectionSpans text.length sections).map (fun sp =>
      jsTrim (jsSlice text sp.start sp.stop))
  else [text]

theorem sectionSourceTexts_def (text : List Char) :
    sectionSourceTexts text =
      if 1 < (detectSectionBoundaries text).length then
        (sectionSpans text.length (detectSectionBoundaries text)).map (fun sp =>
          jsTrim (jsSlice text sp.start sp.stop))
      else [text] := rfl

theorem mem_piecesOf_bound_section (text : List Char) (maxC ov : Nat) (hov : 0 < ov)
    (pr : List Char × Option (List Char)) (hpr : pr ∈ piecesOf text maxC ov) :
    pr.1.length ≤ maxC ∨
    ∃ s ∈ sectionSourceTexts text,
      pr.1 ∈ splitByParagraphs s maxC ov ∧
      pr.1.length ≤ max maxC (ov + 2 + maxParaLen s) := by
  rw [piecesOf_def] at hpr
  rw [sectionSourceTexts_def]
  by_cases hs : 1 < (detectSectionBoundaries text).length
  · rw [if_pos hs] at hpr ⊢
    rw [List.mem_flatMap] at hpr
    obtain ⟨sp, hspin, hmem⟩ := hpr
    rw [spanPieces_def] at hmem
    by_cases h1 : jsTrim (jsSlice text sp.start sp.stop) = []
    · rw [if_pos h1] at hmem
      cases hmem
    · rw [if_neg h1] at hmem
      by_cases h2 : maxC < (jsTrim (jsSlice text sp.start sp.stop)).length
      · rw [if_pos h2] at hmem
        rw [List.mem_map] at hmem
        obtain ⟨s, hsin, hse⟩ := hmem
        subst hse
        right
        refine ⟨jsTrim (jsSlice text sp.start sp.stop), ?_, hsin, ?_⟩
        · rw [List.mem_map]
          exact ⟨sp, hspin, rfl⟩
        · obtain ⟨_, hsz, _, _, _⟩ := paraChunks_facts
            (jsTrim (jsSlice text sp.start sp.stop)) maxC ov
            (maxParaLen (jsTrim (jsSlice text sp.start sp.stop)))
            (fun p hp => le_maxParaLen _ p hp)
          rw [splitByParagraphs_eq_paraChunks] at hsin
          exact hsz hov s hsin
      · rw [if_neg h2] at hmem
        rw [List.mem_singleton] at hmem
        subst hmem
        left
        exact Nat.le_of_not_lt h2
  · rw [if_neg hs] at hpr ⊢
    rw [List.mem_map] at hpr
    obtain ⟨s, hsin, hse⟩ := hpr
    subst hse
    right
    refine ⟨text, ?_, hsin, ?_⟩
    · exact List.mem_singleton.mpr rfl
    · obtain ⟨_, hsz, _, _, _⟩ := paraChunks_facts text maxC ov (maxParaLen text)
        (fun p hp => le_maxParaLen text p hp)
      rw [splitByParagraphs_eq_paraChunks] at hsin
      exact hsz hov s hsin

-- #### Symbolic evaluation on an unbroken all-letter block (C2)

theorem trimL_eq_self (l : List Char) (h : ∀ c ∈ l, isJsWs c = false) :
    trimL l = l := by
  cases l with
  | nil => rfl
  | cons c cs =>
    rw [trimL, List.dropWhile_cons]
    rw [h c (by simp)]
    simp

theorem jsTrim_eq_self (l : List Char) (h : ∀ c ∈ l, isJsWs c = false) :
    jsTrim l = l := by
  have h1 : trimR l = l := by
    rw [trimR]
    have h2 : List.dropWhile isJsWs l.reverse = l.reverse :=
      trimL_eq_self l.reverse (fun c hc => h c (List.mem_reverse.mp hc))
    rw [h2, List.reverse_reverse]
  rw [jsTrim, h1]
  exact trimL_eq_self l h

theorem detect_all_a (n : Nat) :
    detectSectionBoundaries (List.replicate n 'a') = [⟨0, none⟩] := by
  have hrep : ∀ c ∈ List.replicate n 'a', c = 'a' :=
    fun c hc => List.eq_of_mem_replicate hc
  have h1 : scanPattern patMarkdown true 0 (List.replicate n 'a') = [] := by
    have he : patMarkdown = ⟨fun c => c = '#', 1, some 3⟩ :: [wsAtom 1, dotAtom 1] := rfl
    rw [he]
    refine scanPattern_eq_nil _ _ (by decide) _ (fun c hc => ?_) _ _
    rw [hrep c hc]
    decide
  have h2 : scanPattern patChapter true 0 (List.replicate n 'a') = [] := by
    have he : patChapter = litCIAtom 'C' ::
        (strCI ['h', 'a', 'p', 't', 'e', 'r'] ++ chapterTail) := rfl
    rw [he]
    refine scanPattern_eq_nil _ _ (by decide) _ (fun c hc => ?_) _ _
    rw [hrep c hc]
    decide
  have h3 : scanPattern patPart true 0 (List.replicate n 'a') = [] := by
    have he : patPart = litCIAtom 'P' :: (strCI ['a', 'r', 't'] ++ chapterTail) := rfl
    rw [he]
    refine scanPattern_eq_nil _ _ (by decide) _ (fun c hc => ?_) _ _
    rw [hrep c hc]
    decide
  have h4 : scanPattern patSection true 0 (List.replicate n 'a') = [] := by
    have he : patSection = litCIAtom 'S' :: (strCI ['e', 'c', 't', 'i', 'o', 'n'] ++
        [wsAtom 1, ⟨fun c => c.isDigit || c = '.', 1, none⟩, dotColonAtom,
         wsAtom 0, dotAtom 0]) := rfl
    rw [he]
    refine scanPattern_eq_nil _ _ (by decide) _ (fun c hc => ?_) _ _
    rw [hrep c hc]
    decide
  have h5 : scanPattern patNumbered true 0 (List.replicate n 'a') = [] := by
    have he : patNumbered = digitAtom :: [litAtom '.', wsAtom 1, upperAtom, dotAtom 2] := rfl
    rw [he]
    refine scanPattern_eq_nil _ _ (by decide) _ (fun c hc => ?_) _ _
    rw [hrep c hc]
    decide
  have h6 : scanPattern patSubNumbered true 0 (List.replicate n 'a') = [] := by
    have he : patSubNumbered = digitAtom ::
        [litAtom '.', digitAtom, wsAtom 1, upperAtom, dotAtom 2] := rfl
    rw [he]
    refine scanPattern_eq_nil _ _ (by decide) _ (fun c hc => ?_) _ _
    rw [hrep c hc]
    decide
  have h7 : scanPattern patAllCaps true 0 (List.replicate n 'a') = [] := by
    have he : patAllCaps = upperAtom ::
        [⟨fun c => ('A' ≤ c && c ≤ 'Z') || isJsWs c, 4, none⟩] := rfl
    rw [he]
    refine scanPattern_eq_nil _ _ (by decide) _ (fun c hc => ?_) _ _
    rw [hrep c hc]
    decide
  rw [detect_def]
  have hflat : headingPatterns.flatMap (fun pr =>
      (scanPattern pr.1 true 0 (List.replicate n 'a')).map
        (fun im => (⟨im.1, some (pr.2 im.2)⟩ : Boundary))) = [] := by
    simp only [headingPatterns, List.flatMap_cons, List.flatMap_nil]
    rw [h1, h2, h3, h4, h5, h6, h7]
    simp
  rw [hflat]
  rfl

theorem paraChunks_single (p : List Char) (maxC ov : Nat) (hp : jsTrim p = p)
    (hne : p ≠ []) (hnl : '\n' ∉ p) :
    paraChunks p maxC ov = [p] := by
  have hsplit : jsSplitBlank p = [p] := jsSplitBlank_no_newline p hnl
  have hfold : (jsSplitBlank p).foldl (paraStep maxC ov) ([], []) = ([], p) := by
    rw [hsplit, List.foldl_cons, List.foldl_nil, paraStep_eq]
    rw [hp, if_neg hne]
    have hcond : ¬(maxC < (([], []) : List (List Char) × List Char).2.length +
        p.length + 2 ∧ (([], []) : List (List Char) × List Char).2 ≠ []) := by
      intro hcc
      exact hcc.2 rfl
    rw [if_neg hcond]
    simp
  show (if jsTrim ((jsSplitBlank p).foldl (paraStep maxC ov) ([], [])).2 = []
      then ((jsSplitBlank p).foldl (paraStep maxC ov) ([], [])).1
      else ((jsSplitBlank p).foldl (paraStep maxC ov) ([], [])).1 ++
        [jsTrim ((jsSplitBlank p).foldl (paraStep maxC ov) ([], [])).2]) = [p]
  rw [hfold]
  rw [hp, if_neg hne]
  rfl

theorem replicate_a_facts (n : Nat) (hn : 0 < n) :
    jsTrim (List.replicate n 'a') = List.replicate n 'a' ∧
    List.replicate n 'a' ≠ [] ∧ '\n' ∉ List.replicate n 'a' := by
  refine ⟨jsTrim_eq_self _ (fun c hc => ?_), ?_, ?_⟩
  · rw [List.eq_of_mem_replicate hc]
    decide
  · intro h
    rw [List.replicate_eq_nil] at h
    omega
  · intro h
    have := List.eq_of_mem_replicate h
    cases this

theorem zipWith_enum_text (k : Nat) (ps : List (List Char × Option (List Char)))
    (ds : List Nat) :
    List.zipWith (fun c d => c.text.drop d) (enumChunksFrom k ps) ds =
    List.zipWith (fun t d => t.drop d) (ps.map Prod.fst) ds := by
  induction ps generalizing k ds with
  | nil => simp [enumChunksFrom]
  | cons p rest ih =>
    obtain ⟨t, l⟩ := p
    cases ds with
    | nil => simp [enumChunksFrom]
    | cons d ds2 =>
      simp only [enumChunksFrom, List.map_cons, List.zipWith_cons_cons]
      rw [ih (k + 1) ds2]

-- ### The embedding batcher `generateEmbeddings`

/-- Loop of `generateEmbeddings`: `for (let i = 0; i < texts.length; i += batchSize)`
sending `texts.slice(i, i + batchSize)` to the provider (`embedMany`) and
concatenating the returned vectors.  The provider is a parameter standing for
the external embedding service; fuel bounds the iteration count. -/
def generateEmbeddingsGo (provider : List (List Char) → List (List Rat))
    (batchSize : Nat) : Nat → List (List Char) → List (List Rat)
  | 0, _ => []
  | _, [] => []
  | fuel + 1, texts =>
    provider (texts.take batchSize) ++
      generateEmbeddingsGo provider batchSize fuel (texts.drop batchSize)

/-- Model of `generateEmbeddings` with its hard-coded `batchSize = 100`. -/
def generateEmbeddings (provider : List (List Char) → List (List Rat))
    (texts : List (List Char)) : List (List Rat) :=
  generateEmbeddingsGo provider 100 texts.length texts

theorem generateEmbeddingsGo_map (g : List Char → List Rat) (bs : Nat)
    (hbs : 0 < bs) :
    ∀ (fuel : Nat) (texts : List (List Char)), texts.length ≤ fuel →
      generateEmbeddingsGo (fun b => b.map g) bs fuel texts = texts.map g := by
  intro fuel
  induction fuel with
  | zero =>
    intro texts hlen
    have : texts = [] := List.eq_nil_of_length_eq_zero (Nat.le_zero.mp hlen)
    subst this
    rfl
  | succ fuel ih =>
    intro texts hlen
    cases texts with
    | nil => rfl
    | cons t rest =>
      show ((t :: rest).take bs).map g ++
          generateEmbeddingsGo (fun b => b.map g) bs fuel ((t :: rest).drop bs) =
        (t :: rest).map g
      rw [ih ((t :: rest).drop bs)
        (by simp only [List.length_drop, List.length_cons] at hlen ⊢; omega)]
      rw [← List.map_append, List.take_append_drop]

-- ### Progress events of the ingestion pipeline (C1)

/-- Stages of `ProcessingProgress`. -/
inductive Stage where
  | extracting
  | chunking
  | embedding
  | uploading
  | done
  | error
deriving DecidableEq, Repr

/-- One progress callback invocation: stage and integer percent. -/
structure ProgressEvent where
  stage : Stage
  progress : Nat
deriving DecidableEq, Repr

/-- `Math.round(40 + (processed / total) * 50)` on nonnegative rationals:
`round x = floor (x + 1/2)`, so the percent is
`⌊(80·total + 100·processed + total) / (2·total)⌋`. -/
def jsRound40 (total processed : Nat) : Nat :=
  (80 * total + 100 * processed + total) / (2 * total)

/-- The `processed` values reported by the batches of `generateEmbeddings`:
`Math.min(i + batchSize, texts.length)` for `i = 0, batchSize, …`. -/
def batchEndsGo (batchSize : Nat) : Nat → Nat → Nat → List Nat
  | 0, _, _ => []
  | fuel + 1, i, len =>
    if i < len then min (i + batchSize) len :: batchEndsGo batchSize fuel (i + batchSize) len
    else []

def batchEnds (batchSize len : Nat) : List Nat := batchEndsGo batchSize len 0 len

/-- Progress events emitted by one successful `processAndEmbedPDF` run on a
PDF whose extracted text is `text` (when the trimmed text is empty the run
throws right after the first event). -/
def processAndEmbedTrace (text : List Char) : List ProgressEvent :=
  if jsTrim text = [] then [⟨Stage.extracting, 10⟩]
  else
    let total := (chunkText text).length
    ⟨Stage.extracting, 10⟩ :: ⟨Stage.chunking, 30⟩ :: ⟨Stage.embedding, 40⟩ ::
      ((batchEnds 100 total).map (fun p => ⟨Stage.embedding, jsRound40 total p⟩) ++
        [⟨Stage.done, 100⟩])

/-- Progress events sent over the SSE stream by `POST /api/embed` on a
successful run: the `processAndEmbedPDF` events, then `uploading (92)` right
before the Convex upload. -/
def embedRoutePostTrace (text : List Char) : List ProgressEvent :=
  if jsTrim text = [] then processAndEmbedTrace text
  else processAndEmbedTrace text ++ [⟨Stage.uploading, 92⟩]

/-- Boolean check that the reported percents never decrease. -/
def monotoneProg : List ProgressEvent → Bool
  | [] => true
  | [_] => true
  | a :: b :: rest =>
    if a.progress ≤ b.progress then monotoneProg (b :: rest) else false

-- ### Document lifecycle of the upload phase (C3)

/-- Convex mutations issued by the upload phase of `POST /api/embed`. -/
inductive ConvexMut where
  | createDocument
  | storeChunksBatch (count : Nat)
  | completeDocument
  | failDocument
deriving DecidableEq, Repr

/-- Document `status` column. -/
inductive DocStatus where
  | processing
  | completed
  | failed
deriving DecidableEq, Repr

/-- Effect of each mutation on the Document row's status: `createDocument`
inserts with `status: "processing"`, `completeDocument` patches to
`"completed"`, `failDocument` patches to `"failed"`. -/
def applyMut (st : Option DocStatus) : ConvexMut → Option DocStatus
  | ConvexMut.createDocument => some DocStatus.processing
  | ConvexMut.storeChunksBatch _ => st
  | ConvexMut.completeDocument => st.map (fun _ => DocStatus.completed)
  | ConvexMut.failDocument => st.map (fun _ => DocStatus.failed)

/-- Sizes of the chunk batches uploaded by
`for (let i = 0; i < embeddedChunks.length; i += 20)`. -/
def storeBatchSizes : Nat → Nat → List Nat
  | 0, _ => []
  | _ + 1, 0 => []
  | fuel + 1, n + 1 => min 20 (n + 1) :: storeBatchSizes fuel (n + 1 - 20)

/-- Mutation sequence of a fully successful upload of `n` embedded chunks:
create the document, store the batches, mark completed.  The `catch` block of
the route issues no mutation at all, so a run that fails at step `k` executes
exactly `(uploadMutations n).take k`. -/
def uploadMutations (n : Nat) : List ConvexMut :=
  ConvexMut.createDocument ::
    ((storeBatchSizes n n).map ConvexMut.storeChunksBatch ++ [ConvexMut.completeDocument])

theorem foldl_applyMut_store (bs : List Nat) (st : Option DocStatus) :
    (bs.map ConvexMut.storeChunksBatch).foldl applyMut st = st := by
  induction bs generalizing st with
  | nil => rfl
  | cons b rest ih =>
    rw [List.map_cons, List.foldl_cons]
    exact ih st

-- ### Retrieval path (C4)

/-- Row stored in the `chunks` table, as surfaced by `getChunkById`. -/
structure ChunkRow where
  text : List Char
  documentName : Option (List Char)
  sectionLabel : Option (List Char)
deriving DecidableEq, Repr

/-- Collection loop of `searchByEmbedding`: push candidates whose `_score`
clears `minScore` (resolving the chunk row, skipping vanished ids), and
`break` once `limit` rows are collected. -/
def collectLoop (getChunk : Nat → Option ChunkRow) (limitv : Nat) (minScorev : Rat)
    (acc : List (ChunkRow × Rat)) : List (Nat × Rat) → List (ChunkRow × Rat)
  | [] => acc
  | (cid, s) :: rest =>
    if minScorev ≤ s then
      let acc2 := match getChunk cid with
        | some ch => acc ++ [(ch, s)]
        | none => acc
      if limitv ≤ acc2.length then acc2
      else collectLoop getChunk limitv minScorev acc2 rest
    else collectLoop getChunk limitv minScorev acc rest

/-- Model of the Convex action `searchByEmbedding`.  `ann` is the ranked
candidate list of the vector index (`ctx.vectorSearch`, truncated to
`limit * 2`), `getChunk` resolves ids.  Defaults: `limit ?? 10`,
`minScore ?? 0.8` (`0.8 = mkRat 4 5`). -/
def searchByEmbedding (ann : List (Nat × Rat)) (getChunk : Nat → Option ChunkRow)
    (limitArg : Option Nat) (minScoreArg : Option Rat) : List (ChunkRow × Rat) :=
  let limitv := limitArg.getD 10
  let minScorev := minScoreArg.getD (mkRat 4 5)
  collectLoop getChunk limitv minScorev [] (ann.take (limitv * 2))

/-- JavaScript `v || dflt` on an optional string field. -/
def jsOrText (v : Option (List Char)) (dflt : List Char) : List Char :=
  match v with
  | none => dflt
  | some t => if t = [] then dflt else t

/-- Formatted result row of `retrievalTool`. -/
structure RetrievedChunk where
  rank : Nat
  score : Rat
  document : List Char
  sectionLabel : List Char
  text : List Char
deriving DecidableEq, Repr

def unknownText : List Char := "Unknown".toList

def naText : List Char := "N/A".toList

/-- `results.slice(0, 10).map((result, index) => ({ rank: index + 1, … }))`. -/
def formatNoRerank : Nat → List (ChunkRow × Rat) → List RetrievedChunk
  | _, [] => []
  | i, (ch, s) :: rest =>
    ⟨i + 1, s, jsOrText ch.documentName unknownText,
      jsOrText ch.sectionLabel naText, ch.text⟩ :: formatNoRerank (i + 1) rest

/-- No-rerank fallback of `retrievalTool` (`COHERE_API_KEY` unset): it queries
`searchByEmbedding` with `limit: 50, minScore: 0` and returns the first ten
rows unfiltered. -/
def retrievalNoRerank (ann : List (Nat × Rat)) (getChunk : Nat → Option ChunkRow) :
    List RetrievedChunk :=
  formatNoRerank 0 ((searchByEmbedding ann getChunk (some 50) (some 0)).take 10)

-- ### Concrete inputs used by the closed evaluations

def exHello : List Char := "hello".toList

def exHi : List Char := "hi".toList

def exOversize : List Char := "aaaaaaaa\n\nbbbbbbbb\n\nc".toList

def exOverlap : List Char := "aaaa\n\nbb\n\ncc".toList

def exChunkA : List Char := "aaaa\n\nbb".toList

def exChunkB : List Char := "bb\n\ncc".toList

def exAlpha : List Char := "alpha".toList

def exRow : ChunkRow := ⟨exAlpha, none, none⟩

def exAnn : List (Nat × Rat) := [(0, mkRat 1 10)]

def exGetChunk : Nat → Option ChunkRow := fun i => if i = 0 then some exRow else none

-- ### The ten claims

/-- Claim C1.  On a successful ingestion run the progress percents reported to
the caller are not monotone and the stages are not in the claimed order: the
route emits `uploading (92)` only after `processAndEmbedPDF` has already
emitted `done (100)`.  Evaluated on a PDF whose extracted text is `"hello"`:
the trace is extracting 10, chunking 30, embedding 40, embedding 90,
done 100, uploading 92, which decreases at the last step. -/
theorem embedRoute_progress_not_monotone :
    (embedRoutePostTrace exHello).map (fun e => (e.stage, e.progress)) =
      [(Stage.extracting, 10), (Stage.chunking, 30), (Stage.embedding, 40),
       (Stage.embedding, 90), (Stage.done, 100), (Stage.uploading, 92)] ∧
    monotoneProg (embedRoutePostTrace exHello) = false := by
  decide

/-- Claim C2.  A 20000-character text with no headings and no blank lines does
NOT reach the fixed-width fallback: the paragraph loop pushes the whole block
as one chunk, so `chunkText` returns a single 20000-character chunk instead of
the claimed `ceil(20000 / (6000 - 200)) = 4` fixed-width slices. -/
theorem chunkText_giant_block :
    chunkText (List.replicate 20000 'a') 6000 200 =
      [⟨0, List.replicate 20000 'a', none⟩] ∧
    (20000 + (6000 - 200) - 1) / (6000 - 200) = 4 ∧
    (chunkText (List.replicate 20000 'a') 6000 200).length ≠
      (20000 + (6000 - 200) - 1) / (6000 - 200) := by
  obtain ⟨hj, hne, hnl⟩ := replicate_a_facts 20000 (by omega)
  have hmain : chunkText (List.replicate 20000 'a') 6000 200 =
      [⟨0, List.replicate 20000 'a', none⟩] := by
    rw [chunkText_eq_enum, piecesOf_def, detect_all_a]
    rw [if_neg (by simp)]
    rw [splitByParagraphs_eq_paraChunks, paraChunks_single _ _ _ hj hne hnl]
    rfl
  refine ⟨hmain, by norm_num, ?_⟩
  rw [hmain]
  norm_num

/-- Claim C3.  If any mutation after `createDocument` fails (a `storeChunks`
batch or `completeDocument`), the run executes only a proper prefix of the
mutation sequence; the catch block issues no further mutation, `failDocument`
is never called, and the Document row stays in `processing` forever. -/
theorem uploadRun_stuck_processing (n k : Nat) (h1 : 1 ≤ k)
    (h2 : k < (uploadMutations n).length) :
    ((uploadMutations n).take k).foldl applyMut none = some DocStatus.processing ∧
    ConvexMut.failDocument ∉ (uploadMutations n).take k := by
  cases k with
  | zero => omega
  | succ k2 =>
    have hlen : (uploadMutations n).length =
        ((storeBatchSizes n n).map ConvexMut.storeChunksBatch).length + 2 := by
      simp [uploadMutations]
    have hk2 : k2 ≤ ((storeBatchSizes n n).map ConvexMut.storeChunksBatch).length := by
      omega
    have htake : (uploadMutations n).take (k2 + 1) =
        ConvexMut.createDocument ::
          ((storeBatchSizes n n).map ConvexMut.storeChunksBatch).take k2 := by
      rw [uploadMutations, List.take_succ_cons]
      rw [List.take_append_of_le_length hk2]
    rw [htake]
    constructor
    · rw [List.foldl_cons]
      show (((storeBatchSizes n n).map ConvexMut.storeChunksBatch).take k2).foldl
        applyMut (some DocStatus.processing) = some DocStatus.processing
      rw [← List.map_take]
      exact foldl_applyMut_store _ _
    · intro hmem
      rcases List.mem_cons.mp hmem with h | h
      · cases h
      · rw [← List.map_take, List.mem_map] at h
        obtain ⟨a, _, ha⟩ := h
        cases ha

theorem uploadRun_stuck_processing_witness :
    1 ≤ 2 ∧ 2 < (uploadMutations 30).length ∧
    (((uploadMutations 30).take 2).foldl applyMut none = some DocStatus.processing ∧
      ConvexMut.failDocument ∉ (uploadMutations 30).take 2) :=
  ⟨by decide, by decide, uploadRun_stuck_processing 30 2 (by decide) (by decide)⟩

/-- Claim C4.  In no-rerank mode (`COHERE_API_KEY` unset) `retrievalTool` does
NOT apply any `minScore` threshold: it queries `searchByEmbedding` with
`minScore: 0` and returns `results.slice(0, 10)` unfiltered, so a chunk whose
vector-similarity score is 0.1 — far below the configured default threshold
0.8 — is returned as the top result. -/
theorem retrievalNoRerank_below_minScore :
    retrievalNoRerank exAnn exGetChunk =
      [⟨1, mkRat 1 10, unknownText, naText, exAlpha⟩] ∧
    mkRat 1 10 < mkRat 8 10 := by
  decide

/-- Claim C5, counterexample.  On `"aaaaaaaa\n\nbbbbbbbb\n\nc"` with
`maxChunkChars = 10`, `overlapChars = 4`, every paragraph's trimmed length is
at most 10, yet `chunkText` emits a chunk of 14 characters: the flush seeds
the next buffer with `slice(-4) + "\n\n" + paragraph`, which exceeds the limit
even though no single paragraph does.  The claimed exception (a lone oversized
paragraph) therefore does not cover all oversized chunks. -/
theorem chunkText_exceeds_max :
    (∀ p ∈ jsSplitBlank exOversize, (jsTrim p).length ≤ 10) ∧
    ∃ c ∈ chunkText exOversize 10 4, 10 < c.text.length := by
  decide

/-- Claim C5, amended.  For positive `overlapChars`, every chunk either fits
in `maxChunkChars`, or was produced by paragraph-splitting its OWN section
text `s` (the trimmed section slice when headings are detected, otherwise the
whole input) and its length is at most
`max maxChunkChars (overlapChars + 2 + maxParaLen s)`, where `maxParaLen s`
is the longest trimmed paragraph length of that same section text: the
exception must include flush-seeded chunks (overlap, separator, and one
paragraph of the chunk's own section), not only lone oversized paragraphs. -/
theorem chunkText_size_bound (text : List Char) (maxC ov : Nat) (hov : 0 < ov) :
    ∀ c ∈ chunkText text maxC ov,
      c.text.length ≤ maxC ∨
      ∃ s ∈ sectionSourceTexts text,
        c.text ∈ splitByParagraphs s maxC ov ∧
        c.text.length ≤ max maxC (ov + 2 + maxParaLen s) := by
  intro c hc
  rw [chunkText_eq_enum] at hc
  exact mem_piecesOf_bound_section text maxC ov hov (c.text, c.sectionLabel)
    (mem_enumChunksFrom 0 _ c hc)

theorem chunkText_size_bound_witness :
    0 < 4 ∧ ∀ c ∈ chunkText exOversize 10 4,
      c.text.length ≤ 10 ∨
      ∃ s ∈ sectionSourceTexts exOversize,
        c.text ∈ splitByParagraphs s 10 4 ∧
        c.text.length ≤ max 10 (4 + 2 + maxParaLen s) :=
  ⟨by decide, chunkText_size_bound exOversize 10 4 (by decide)⟩

/-- Claim C6, counterexample.  On `"aaaa\n\nbb\n\ncc"` with
`maxChunkChars = 10`, `overlapChars = 4`, the flush produces chunks
`"aaaa\n\nbb"` and `"bb\n\ncc"`: the second chunk does not start with the
trailing four characters `"\n\nbb"` of the first, because the seeded buffer is
trimmed before being pushed. -/
theorem splitByParagraphs_overlap_violation :
    splitByParagraphs exOverlap 10 4 = [exChunkA, exChunkB] ∧
    (jsSliceNeg 4 exChunkA).isPrefixOf exChunkB = false := by
  decide

/-- Claim C6, amended.  Consecutive chunks of `splitByParagraphs` satisfy the
overlap invariant up to left-trimming: the later chunk starts with the
LEFT-TRIMMED trailing `overlapChars` characters of the earlier one (leading
whitespace of the seed is removed when the buffer is trimmed on push). -/
theorem splitByParagraphs_overlap_trimmed (text : List Char) (maxC ov : Nat) :
    List.Chain' (overlapRel ov) (splitByParagraphs text maxC ov) := by
  rw [splitByParagraphs_eq_paraChunks]
  exact (paraChunks_facts text maxC ov (maxParaLen text)
    (fun p hp => le_maxParaLen text p hp)).2.2.1

/-- Claim C7.  Round trip: there is a list of per-chunk prefix lengths —
zero for the first chunk, and between chunks bounded by the injected overlap
prefix (`dropBoundRel`: at most the trimmed `slice(-overlapChars)` of the
previous chunk plus the two separator characters, and at most
`overlapChars + 2` when the overlap is positive) — such that dropping those
prefixes and concatenating the chunks of `chunkText` reproduces exactly the
non-whitespace content of the input, in order. -/
theorem chunkText_roundtrip_content (text : List Char) (maxC ov : Nat) :
    ∃ drops : List Nat,
      drops.length = (chunkText text maxC ov).length ∧
      (drops = [] ∨ drops.head? = some 0) ∧
      List.Chain' (dropBoundRel ov)
        (((chunkText text maxC ov).map (fun c => c.text)).zip drops) ∧
      contentOf (List.zipWith (fun c d => c.text.drop d)
        (chunkText text maxC ov) drops).flatten = contentOf text := by
  obtain ⟨drops, hl, h0, hc, hcont⟩ := piecesOf_drops text maxC ov
  refine ⟨drops, ?_, h0, ?_, ?_⟩
  · rw [chunkText_eq_enum, length_enumChunksFrom, hl, List.length_map]
  · rw [chunkText_eq_enum, enumChunksFrom_map_text]
    exact hc
  · rw [chunkText_eq_enum, zipWith_enum_text]
    exact hcont

/-- Claim C8.  The `chunkIndex` values of `chunkText` are exactly
`0, 1, …, N-1` in emission order, where `N` is the number of returned chunks:
global, strictly increasing, gap-free, and not reset per section. -/
theorem chunkText_indices (text : List Char) (maxC ov : Nat) :
    (chunkText text maxC ov).map (fun c => c.chunkIndex) =
      List.range (chunkText text maxC ov).length := by
  rw [chunkText_eq_enum, enumChunksFrom_map_idx, length_enumChunksFrom,
    List.range_eq_range']

/-- Claim C9.  With a provider that embeds each batch element-wise
(`fun b => b.map g`), `generateEmbeddings` returns exactly `texts.map g`: one
vector per input in input order, with length equal to the input length; and
the same holds for the batching loop at ANY positive batch size, so the batch
boundary choice cannot change the output. -/
theorem generateEmbeddings_spec (g : List Char → List Rat)
    (texts : List (List Char)) (bs : Nat) (hbs : 0 < bs) :
    generateEmbeddings (fun b => b.map g) texts = texts.map g ∧
    (generateEmbeddings (fun b => b.map g) texts).length = texts.length ∧
    generateEmbeddingsGo (fun b => b.map g) bs texts.length texts = texts.map g := by
  have h1 := generateEmbeddingsGo_map g 100 (by omega) texts.length texts (le_refl _)
  have h2 := generateEmbeddingsGo_map g bs hbs texts.length texts (le_refl _)
  exact ⟨h1, by rw [generateEmbeddings, h1, List.length_map], h2⟩

theorem generateEmbeddings_spec_witness :
    0 < 1 ∧
    (generateEmbeddings (fun b => b.map (fun t => [(t.length : Rat)])) [exHi] =
        [exHi].map (fun t => [(t.length : Rat)]) ∧
      (generateEmbeddings (fun b => b.map (fun t => [(t.length : Rat)])) [exHi]).length =
        ([exHi] : List (List Char)).length ∧
      generateEmbeddingsGo (fun b => b.map (fun t => [(t.length : Rat)])) 1
        ([exHi] : List (List Char)).length [exHi] =
        [exHi].map (fun t => [(t.length : Rat)])) :=
  ⟨by decide, generateEmbeddings_spec (fun t => [(t.length : Rat)]) [exHi] 1 (by decide)⟩

/-- Claim C10.  The character-count fallback of `splitByParagraphs` is dead
code (`splitByParagraphs` always equals the paragraph loop's output); for any
input with non-whitespace content the loop emits at least one chunk and
`chunkText` returns a non-empty list; and every returned chunk's text is
trimmed and non-empty. -/
theorem chunkText_safety (text : List Char) (maxC ov : Nat) :
    splitByParagraphs text maxC ov = paraChunks text maxC ov ∧
    (contentOf text ≠ [] → paraChunks text maxC ov ≠ [] ∧ chunkText text maxC ov ≠ []) ∧
    (∀ c ∈ chunkText text maxC ov, jsTrim c.text = c.text ∧ c.text ≠ []) := by
  refine ⟨splitByParagraphs_eq_paraChunks text maxC ov, ?_, ?_⟩
  · intro h
    constructor
    · intro hnil
      obtain ⟨_, _, _, _, hlast⟩ := paraChunks_facts text maxC ov (maxParaLen text)
        (fun p hp => le_maxParaLen text p hp)
      exact h (hlast hnil)
    · intro hnil
      have hp := piecesOf_ne_nil text maxC ov h
      rw [chunkText_eq_enum] at hnil
      have hlen := length_enumChunksFrom 0 (piecesOf text maxC ov)
      rw [hnil] at hlen
      exact hp (List.length_eq_zero.mp hlen.symm)
  · intro c hc
    rw [chunkText_eq_enum] at hc
    have hmem := mem_enumChunksFrom 0 _ c hc
    have hfacts := mem_piecesOf_trimmed text maxC ov (c.text, c.sectionLabel) hmem
    refine ⟨hfacts.1, ?_⟩
    intro hnil
    rw [hnil] at hfacts
    exact hfacts.2 rfl

theorem chunkText_safety_witness :
    contentOf exHi ≠ [] ∧ chunkText exHi 10 2 ≠ [] :=
  ⟨by decide, ((chunkText_safety exHi 10 2).2.1 (by decide)).2⟩
